import Mathlib

/-!
Verification of the collaboratorium versioned record store, link
reconciliation engine and graph materializer.

The Python source is shallowly embedded: a table is a `List Row` (the
append-only row store), SQL queries become list computations, and the
form-submission handlers become pure state-transforming functions.
All embedded definitions mirror the corresponding functions in
`db.py` and `form_gen.py`.
-/

namespace Collab

/-- Row of a versioned entity table.  `cells` holds the remaining
(domain / foreign-key) columns as an association list; a `none` cell
value is SQL NULL. -/
structure Row where
  id : Nat
  version : Nat
  status : Option String
  timestamp : Nat
  createdBy : Option Nat
  cells : List (String × Option Nat)
deriving DecidableEq, Repr

/-- Read a column of a row by name, as the SQL layer does:
`id` and `version` are real columns of every versioned table. -/
def rowGet (r : Row) (c : String) : Option Nat :=
  if c = "id" then some r.id
  else if c = "version" then some r.version
  else match r.cells.lookup c with
  | some v => v
  | none => none

/-- SQL predicate `status IS NULL OR status != 'deleted'` used by
`get_latest_record` and `get_all_records` in `db.py`. -/
def notDeleted (s : Option String) : Bool :=
  match s with
  | none => true
  | some v => v ≠ "deleted"

/-- SQL predicate `status != 'deleted'` (strict: NULL status fails it),
used by the window-function queries in `db.py` and by
`get_dropdown_options`. -/
def strictNotDeleted (s : Option String) : Bool :=
  match s with
  | none => false
  | some v => v ≠ "deleted"

/-- Keep the row with the larger version (`ORDER BY version DESC LIMIT 1`);
on a tie the later row wins. -/
def pickLatest (a : Option Row) (r : Row) : Option Row :=
  match a with
  | none => some r
  | some p => if p.version ≤ r.version then some r else some p

/-- Row with the maximum `version` in a list (last one on ties). -/
def latestOf (rows : List Row) : Option Row :=
  rows.foldl pickLatest none

/-- Embedding of `get_latest_record(table_name, object_id)` from `db.py`
(`object_id` branch): `SELECT * FROM t WHERE id = ? AND (status IS NULL
OR status != 'deleted') ORDER BY version DESC LIMIT 1`. -/
def get_latest_record (rows : List Row) (oid : Nat) : Option Row :=
  latestOf (rows.filter (fun r => r.id = oid ∧ notDeleted r.status))

theorem foldl_pickLatest_spec (rows : List Row) :
    ∀ (a : Option Row) (r : Row), rows.foldl pickLatest a = some r →
      ((r ∈ rows ∨ a = some r) ∧ (∀ x ∈ rows, x.version ≤ r.version) ∧
        (∀ p, a = some p → p.version ≤ r.version)) := by
  induction rows with
  | nil =>
    intro a r h
    simp only [List.foldl_nil] at h
    exact ⟨Or.inr h, by simp, fun p hp => by simp [hp] at h; simp [h]⟩
  | cons x xs ih =>
    intro a r h
    simp only [List.foldl_cons] at h
    obtain ⟨hmem, hmax, hacc⟩ := ih (pickLatest a x) r h
    have hx : x.version ≤ r.version := by
      rcases a with _ | p
      · exact hacc x rfl
      · by_cases hle : p.version ≤ x.version
        · exact hacc x (by simp [pickLatest, hle])
        · have hp := hacc p (by simp [pickLatest, hle])
          omega
    refine ⟨?_, ?_, ?_⟩
    · rcases hmem with hm | hm
      · exact Or.inl (List.mem_cons_of_mem _ hm)
      · rcases a with _ | p
        · simp [pickLatest] at hm
          exact Or.inl (by simp [hm])
        · by_cases hle : p.version ≤ x.version
          · simp [pickLatest, hle] at hm
            exact Or.inl (by simp [hm])
          · simp [pickLatest, hle] at hm
            exact Or.inr (by simp [hm])
    · intro y hy
      rcases List.mem_cons.mp hy with hy | hy
      · subst hy; exact hx
      · exact hmax y hy
    · intro p hp
      subst hp
      rcases hacc with _
      by_cases hle : p.version ≤ x.version
      · omega
      · exact hacc p (by simp [pickLatest, hle])

theorem latestOf_spec (rows : List Row) (r : Row) (h : latestOf rows = some r) :
    r ∈ rows ∧ ∀ x ∈ rows, x.version ≤ r.version := by
  obtain ⟨hm, hmax, _⟩ := foldl_pickLatest_spec rows none r h
  exact ⟨hm.resolve_right (by simp), hmax⟩

theorem latestOf_none (rows : List Row) (h : latestOf rows = none) : rows = [] := by
  cases rows with
  | nil => rfl
  | cons x xs =>
    exfalso
    have : ∀ (l : List Row) (p : Row), ∃ r, l.foldl pickLatest (some p) = some r := by
      intro l
      induction l with
      | nil => intro p; exact ⟨p, rfl⟩
      | cons y ys ih =>
        intro p
        simp only [List.foldl_cons]
        rcases hc : pickLatest (some p) y with _ | q
        · simp [pickLatest] at hc
          split at hc <;> simp_all
        · exact ih q
    obtain ⟨r, hr⟩ := this xs x
    rw [latestOf, List.foldl_cons] at h
    have : pickLatest none x = some x := rfl
    rw [this, hr] at h
    exact Option.noConfusion h

/-- Ascending order used by `ORDER BY` on a nullable integer column
(SQLite sorts NULLs first). -/
def optLe (a b : Option Nat) : Bool :=
  match a, b with
  | none, _ => true
  | some _, none => false
  | some x, some y => x ≤ y

/-- Insert into a list sorted by `optLe`. -/
def insertSorted (x : Option Nat) : List (Option Nat) → List (Option Nat)
  | [] => [x]
  | y :: ys => if optLe x y then x :: y :: ys else y :: insertSorted x ys

/-- Sort a list of nullable values ascending (`ORDER BY value_column`). -/
def sortOpt (l : List (Option Nat)) : List (Option Nat) :=
  l.foldr insertSorted []

theorem optLe_total (a b : Option Nat) : optLe a b = true ∨ optLe b a = true := by
  cases a <;> cases b <;> simp [optLe] <;> omega

theorem optLe_trans (a b c : Option Nat) (h1 : optLe a b = true)
    (h2 : optLe b c = true) : optLe a c = true := by
  cases a <;> cases b <;> cases c <;> simp [optLe] at * <;> omega

theorem perm_insertSorted (x : Option Nat) (l : List (Option Nat)) :
    (insertSorted x l).Perm (x :: l) := by
  induction l with
  | nil => exact List.Perm.refl _
  | cons y ys ih =>
    by_cases h : optLe x y = true
    · simp [insertSorted, h]
    · simp only [insertSorted, h, if_false]
      exact (ih.cons y).trans (List.Perm.swap x y ys)

theorem perm_sortOpt (l : List (Option Nat)) : (sortOpt l).Perm l := by
  induction l with
  | nil => exact List.Perm.refl _
  | cons x xs ih =>
    have h1 : sortOpt (x :: xs) = insertSorted x (sortOpt xs) := rfl
    rw [h1]
    exact (perm_insertSorted x (sortOpt xs)).trans (ih.cons x)

theorem pairwise_insertSorted (x : Option Nat) (l : List (Option Nat))
    (h : l.Pairwise (fun a b => optLe a b = true)) :
    (insertSorted x l).Pairwise (fun a b => optLe a b = true) := by
  induction l with
  | nil => simp [insertSorted]
  | cons y ys ih =>
    rcases List.pairwise_cons.mp h with ⟨hy, hys⟩
    by_cases hxy : optLe x y = true
    · simp only [insertSorted, hxy, if_true]
      refine List.pairwise_cons.mpr ⟨?_, h⟩
      intro z hz
      rcases List.mem_cons.mp hz with hz | hz
      · subst hz; exact hxy
      · exact optLe_trans x y z hxy (hy z hz)
    · simp only [insertSorted, hxy, if_false]
      refine List.pairwise_cons.mpr ⟨?_, ih hys⟩
      intro z hz
      have hz' := (perm_insertSorted x ys).mem_iff.mp hz
      rcases List.mem_cons.mp hz' with hz' | hz'
      · rw [hz']
        rcases optLe_total x y with hc | hc
        · exact absurd hc hxy
        · exact hc
      · exact hy z hz'

theorem pairwise_sortOpt (l : List (Option Nat)) :
    (sortOpt l).Pairwise (fun a b => optLe a b = true) := by
  induction l with
  | nil => simp [sortOpt]
  | cons x xs ih => exact pairwise_insertSorted x (sortOpt xs) ih

/-- Embedding of `get_dropdown_options(table_name, value_column, label_column)`
from `db.py`: rows are partitioned by the VALUE column, ranked by
`version DESC` inside each partition, the top-ranked row of a partition
is kept only when its status satisfies the strict SQL test
`status != 'deleted'` (a NULL status fails it), and the resulting
(value, label) pairs are ordered by the value column ascending. -/
def get_dropdown_options (rows : List Row) (valueCol labelCol : String) :
    List (Option Nat × Option Nat) :=
  let vals := sortOpt ((rows.map (fun r => rowGet r valueCol)).dedup)
  vals.filterMap (fun v =>
    match latestOf (rows.filter (fun r => rowGet r valueCol = v)) with
    | some r => if strictNotDeleted r.status then some (v, rowGet r labelCol) else none
    | none => none)

/-- Helper row sharing group value 7 with `exGrpB` (entity 1, active). -/
def exGrpA : Row :=
  { id := 1, version := 1, status := some "active", timestamp := 0,
    createdBy := none, cells := [("grp", some 7)] }

/-- Helper row sharing group value 7 with `exGrpA` (entity 2, active). -/
def exGrpB : Row :=
  { id := 2, version := 1, status := some "active", timestamp := 0,
    createdBy := none, cells := [("grp", some 7)] }

/-- Helper row whose status is NULL (entity 3, group value 9). -/
def exGrpC : Row :=
  { id := 3, version := 1, status := none, timestamp := 0,
    createdBy := none, cells := [("grp", some 9)] }

/-- Claim C9, counterexample.  First part: entities 1 and 2 both have a
non-deleted latest version, yet with value column `grp` (which they
share) the dropdown emits a single pair — the code partitions by the
value column, not by entity id, so it is not "one pair per entity id".
Second part: entity 3's latest version has NULL status, which is not
equal to `deleted`, yet it is excluded because the SQL test
`status != 'deleted'` fails on NULL. -/
theorem get_dropdown_options_not_per_id :
    (get_dropdown_options [exGrpA, exGrpB] "grp" "id").length = 1 ∧
      strictNotDeleted exGrpA.status = true ∧
      strictNotDeleted exGrpB.status = true ∧
      exGrpA.id ≠ exGrpB.id ∧
      get_dropdown_options [exGrpC] "grp" "id" = [] ∧
      exGrpC.status ≠ some "deleted" := by
  decide

/-- Claim C9, amended: the dropdown list contains exactly one pair per
distinct value of the value column whose maximum-version row within
that value group has a non-NULL status different from `deleted`
(when the value column is the id column this is one pair per such
entity id), the label is taken from that maximum-version row, and the
pairs are sorted by the value column ascending. -/
theorem get_dropdown_options_amended (rows : List Row) (valueCol labelCol : String) :
    ((get_dropdown_options rows valueCol labelCol).map Prod.fst).Pairwise
        (fun a b => optLe a b = true) ∧
    ((get_dropdown_options rows valueCol labelCol).map Prod.fst).Nodup ∧
    (∀ p ∈ get_dropdown_options rows valueCol labelCol,
      ∃ r, latestOf (rows.filter (fun x => rowGet x valueCol = p.1)) = some r ∧
        strictNotDeleted r.status = true ∧ rowGet r labelCol = p.2) ∧
    (∀ v r, latestOf (rows.filter (fun x => rowGet x valueCol = v)) = some r →
      strictNotDeleted r.status = true →
      v ∈ (get_dropdown_options rows valueCol labelCol).map Prod.fst) := by
  have hvals :
      ∀ p ∈ get_dropdown_options rows valueCol labelCol,
        (match latestOf (rows.filter (fun x => rowGet x valueCol = p.1)) with
          | some r => if strictNotDeleted r.status then
              some (p.1, rowGet r labelCol) else none
          | none => none) = some p ∧
          p.1 ∈ sortOpt ((rows.map (fun r => rowGet r valueCol)).dedup) := by
    intro p hp
    rw [get_dropdown_options] at hp
    simp only [List.mem_filterMap] at hp
    obtain ⟨v, hv, hm⟩ := hp
    rcases hcase : latestOf (rows.filter (fun x => rowGet x valueCol = v)) with _ | r
    · rw [hcase] at hm; exact absurd hm (by simp)
    · rw [hcase] at hm
      by_cases hs : strictNotDeleted r.status = true
      · simp only [hs, if_true, Option.some.injEq] at hm
        have hfst : p.1 = v := by rw [← hm]
        subst hm
        simpa [hcase, hs] using hv
      · simp [hs] at hm
  have hfst_map :
      (get_dropdown_options rows valueCol labelCol).map Prod.fst =
        ((rows.map (fun r => rowGet r valueCol)).dedup |> sortOpt).filter
          (fun v =>
            match latestOf (rows.filter (fun x => rowGet x valueCol = v)) with
            | some r => strictNotDeleted r.status
            | none => false) := by
    rw [get_dropdown_options]
    induction sortOpt ((rows.map (fun r => rowGet r valueCol)).dedup) with
    | nil => rfl
    | cons v vs ih =>
      simp only [List.filterMap_cons, List.filter_cons]
      rcases hcase : latestOf (rows.filter (fun x => rowGet x valueCol = v)) with _ | r
      · simpa [hcase] using ih
      · by_cases hs : strictNotDeleted r.status = true
        · simpa [hcase, hs] using ih
        · simpa [hcase, hs] using ih
  have hnodup : ((rows.map (fun r => rowGet r valueCol)).dedup |> sortOpt).Nodup :=
    (perm_sortOpt _).nodup_iff.mpr (List.nodup_dedup _)
  refine ⟨?_, ?_, ?_, ?_⟩
  · rw [hfst_map]
    exact List.Pairwise.filter _ (pairwise_sortOpt _)
  · rw [hfst_map]
    exact hnodup.filter _
  · intro p hp
    obtain ⟨hm, _⟩ := hvals p hp
    rcases hcase : latestOf (rows.filter (fun x => rowGet x valueCol = p.1)) with _ | r
    · rw [hcase] at hm; exact absurd hm (by simp)
    · rw [hcase] at hm
      by_cases hs : strictNotDeleted r.status = true
      · simp only [hs, if_true, Option.some.injEq] at hm
        exact ⟨r, rfl, hs, by rw [← hm]⟩
      · simp [hs] at hm
  · intro v r hlatest hs
    rw [hfst_map]
    rw [List.mem_filter]
    constructor
    · have hmem : r ∈ rows.filter (fun x => rowGet x valueCol = v) :=
        (latestOf_spec _ r hlatest).1
      rw [List.mem_filter] at hmem
      have hval : rowGet r valueCol = v := by
        have := hmem.2; simpa using this
      have : v ∈ rows.map (fun x => rowGet x valueCol) :=
        List.mem_map.mpr ⟨r, hmem.1, hval⟩
      exact (perm_sortOpt _).mem_iff.mpr ((List.mem_dedup).mpr this)
    · rw [hlatest]
      simpa using hs

def exRowV1 : Row :=
  { id := 1, version := 1, status := some "active", timestamp := 0,
    createdBy := none, cells := [] }

/-- Helper row: version 2 of entity 1, soft-deleted. -/
def exRowV2 : Row :=
  { id := 1, version := 2, status := some "deleted", timestamp := 1,
    createdBy := none, cells := [] }

/-- Claim C1, counterexample: a store holding versions 1 (active) and
2 (deleted) of entity 1.  The maximum-version row of id 1 has status
`deleted`, so per the claim `get_latest_record` should return absent;
the code instead falls back to the older active version 1. -/
theorem get_latest_record_falls_back :
    get_latest_record [exRowV1, exRowV2] 1 = some exRowV1 ∧
      (get_latest_record [exRowV1, exRowV2] 1).isSome = true ∧
      exRowV2.version = 2 ∧ exRowV1.version = 1 ∧
      exRowV2.status = some "deleted" := by
  decide

/-- Claim C1, amended: `get_latest_record` returns the maximum-version row
among the NON-DELETED rows sharing the id (so when the overall
maximum-version row is deleted it falls back to an older non-deleted
version); it returns absent exactly when no non-deleted row with that id
exists. -/
theorem get_latest_record_amended (rows : List Row) (oid : Nat) :
    (∀ r, get_latest_record rows oid = some r →
      r ∈ rows ∧ r.id = oid ∧ notDeleted r.status = true ∧
        ∀ x ∈ rows, x.id = oid → notDeleted x.status = true →
          x.version ≤ r.version) ∧
    (get_latest_record rows oid = none →
      ∀ x ∈ rows, x.id = oid → notDeleted x.status = false) := by
  constructor
  · intro r h
    obtain ⟨hmem, hmax⟩ := latestOf_spec _ r h
    rw [List.mem_filter] at hmem
    obtain ⟨hr, hcond⟩ := hmem
    simp only [decide_eq_true_eq] at hcond
    refine ⟨hr, ?_, ?_, ?_⟩
    · exact hcond.1
    · exact hcond.2
    · intro x hx hid hnd
      exact hmax x (List.mem_filter.mpr ⟨hx, by simp [hid, hnd]⟩)
  · intro h x hx hid
    have hempty := latestOf_none _ h
    by_contra hnd
    simp only [Bool.not_eq_false] at hnd
    have : x ∈ List.filter (fun r => decide (r.id = oid ∧ notDeleted r.status = true)) rows := by
      exact List.mem_filter.mpr ⟨hx, by simp [hid, hnd]⟩
    rw [show (fun r : Row => decide (r.id = oid ∧ notDeleted r.status = true)) =
        (fun r : Row => decide (r.id = oid ∧ notDeleted r.status)) from rfl] at this
    rw [hempty] at this
    exact absurd this (List.not_mem_nil x)

/-- Data carried by a submitted form: the hidden meta fields `id`,
`version` and `status` plus the user-entered domain columns. -/
structure SubmitData where
  id : Option Nat
  version : Option Nat
  status : Option String
  cells : List (String × Option Nat)
deriving DecidableEq, Repr

/-- Embedding of `_get_max_id_from_cursor` (`SELECT MAX(id)`, 0 when the
table is empty) from `form_gen.py`. -/
def get_max_id (rows : List Row) : Nat :=
  rows.foldl (fun a r => max a r.id) 0

/-- Row stored by the record part of `handle_submit` in
`collaboratorium/form_gen.py`: a missing id allocates `max(id) + 1` and
forces `version = 1`, `status = 'active'`; an existing id stores
`(form version or 0) + 1` keeping the form-supplied status.  Both
branches stamp the timestamp and `created_by`. -/
def handle_submit_record (rows : List Row) (d : SubmitData) (person now : Nat) : Row :=
  match d.id with
  | none =>
    { id := get_max_id rows + 1, version := 1, status := some "active",
      timestamp := now, createdBy := some person, cells := d.cells }
  | some i =>
    { id := i, version := d.version.getD 0 + 1, status := d.status,
      timestamp := now, createdBy := some person, cells := d.cells }

/-- A form submission appends the new version row (`INSERT`), never
touching existing rows. -/
def submit (rows : List Row) (d : SubmitData) (person now : Nat) : List Row :=
  rows ++ [handle_submit_record rows d person now]

/-- One pass of the edit flow: the edit form is pre-populated from
`get_latest_record` (which supplies the hidden `version` and `status`
meta fields), the user enters new domain values, and `handle_submit`
stores the result. -/
def editSubmit (rows : List Row) (oid : Nat) (cells : List (String × Option Nat))
    (person now : Nat) : List Row :=
  submit rows
    { id := some oid,
      version := (get_latest_record rows oid).map Row.version,
      status := (get_latest_record rows oid).bind Row.status,
      cells := cells } person now

/-- Iterate the edit flow `k` times on the same entity. -/
def editIter (oid : Nat) (cells : List (String × Option Nat)) (person now : Nat) :
    Nat → List Row → List Row
  | 0, rows => rows
  | k + 1, rows => editIter oid cells person now k (editSubmit rows oid cells person now)

/-- Create a fresh entity (submission without an id) and then edit it
`k` times through the edit flow. -/
def createThenEdits (rows0 : List Row) (d0cells cells : List (String × Option Nat))
    (person now k : Nat) : List Row :=
  editIter (get_max_id rows0 + 1) cells person now k
    (submit rows0 { id := none, version := none, status := none, cells := d0cells }
      person now)

theorem le_foldl_max (l : List Row) :
    ∀ a : Nat, a ≤ l.foldl (fun a r => max a r.id) a := by
  induction l with
  | nil => intro a; simp
  | cons x xs ih =>
    intro a
    calc a ≤ max a x.id := Nat.le_max_left _ _
    _ ≤ xs.foldl (fun a r => max a r.id) (max a x.id) := ih _

theorem mem_le_foldl_max (l : List Row) (r : Row) (h : r ∈ l) :
    ∀ a : Nat, r.id ≤ l.foldl (fun a r => max a r.id) a := by
  induction l with
  | nil => exact absurd h (List.not_mem_nil r)
  | cons x xs ih =>
    intro a
    rcases List.mem_cons.mp h with h | h
    · subst h
      simp only [List.foldl_cons]
      calc r.id ≤ max a r.id := Nat.le_max_right _ _
      _ ≤ xs.foldl (fun a r => max a r.id) (max a r.id) := le_foldl_max _ _
    · exact ih h (max a x.id)

theorem id_le_get_max_id (l : List Row) (r : Row) (h : r ∈ l) :
    r.id ≤ get_max_id l :=
  mem_le_foldl_max l r h 0

theorem range'_snoc : ∀ (n s : Nat), List.range' s (n + 1) = List.range' s n ++ [s + n] := by
  intro n
  induction n with
  | zero =>
    intro s
    simp [List.range']
  | succ n ih =>
    intro s
    rw [List.range'_succ, ih (s + 1), List.range'_succ]
    simp only [List.cons_append]
    have : s + 1 + n = s + (n + 1) := by omega
    rw [this]

theorem range'_one_snoc (n : Nat) :
    List.range' 1 (n + 1) = List.range' 1 n ++ [n + 1] := by
  rw [range'_snoc n 1]
  have : 1 + n = n + 1 := by omega
  rw [this]

theorem editSubmit_step (st : List Row) (nid : Nat)
    (cells : List (String × Option Nat)) (person now n : Nat) (hn : 1 ≤ n)
    (h1 : (st.filter (fun r => r.id = nid)).map Row.version = List.range' 1 n)
    (h2 : ∀ r ∈ st.filter (fun r => r.id = nid), r.status = some "active") :
    ((editSubmit st nid cells person now).filter (fun r => r.id = nid)).map
        Row.version = List.range' 1 (n + 1) ∧
      ∀ r ∈ (editSubmit st nid cells person now).filter (fun r => r.id = nid),
        r.status = some "active" := by
  have hfe : st.filter (fun r => r.id = nid ∧ notDeleted r.status) =
      st.filter (fun r => r.id = nid) := by
    apply List.filter_congr
    intro x hx
    by_cases hid : x.id = nid
    · have hst : x.status = some "active" :=
        h2 x (List.mem_filter.mpr ⟨hx, by simp [hid]⟩)
      simp [hid, hst, notDeleted]
    · simp [hid]
  have hne : st.filter (fun r => r.id = nid) ≠ [] := by
    intro hnil
    rw [hnil] at h1
    have : (List.range' 1 n).length = 0 := by rw [← h1]; simp
    rw [List.length_range'] at this
    omega
  rcases hl : latestOf (st.filter (fun r => r.id = nid)) with _ | w
  · exact absurd (latestOf_none _ hl) hne
  obtain ⟨hwmem, hwmax⟩ := latestOf_spec _ w hl
  have hglr : get_latest_record st nid = some w := by
    rw [get_latest_record, hfe, hl]
  have hwv_mem : w.version ∈ List.range' 1 n := by
    rw [← h1]
    exact List.mem_map.mpr ⟨w, hwmem, rfl⟩
  have hwv_lt : w.version < 1 + n := (List.mem_range'_1.mp hwv_mem).2
  have hn_mem : (n : Nat) ∈ List.range' 1 n := List.mem_range'_1.mpr ⟨hn, by omega⟩
  have hex : ∃ y ∈ st.filter (fun r => r.id = nid), y.version = n := by
    rw [← h1] at hn_mem
    obtain ⟨y, hy, hyv⟩ := List.mem_map.mp hn_mem
    exact ⟨y, hy, hyv⟩
  have hwv : w.version = n := by
    obtain ⟨y, hy, hyv⟩ := hex
    have := hwmax y hy
    omega
  have hwst : w.status = some "active" := h2 w hwmem
  have hrow : editSubmit st nid cells person now =
      st ++ [Row.mk nid (n + 1) (some "active") now (some person) cells] := by
    rw [editSubmit, submit, hglr]
    simp [handle_submit_record, Option.getD, hwv, hwst]
  rw [hrow]
  rw [List.filter_append]
  have hnewf : List.filter (fun r : Row => decide (r.id = nid))
      [Row.mk nid (n + 1) (some "active") now (some person) cells] =
      [Row.mk nid (n + 1) (some "active") now (some person) cells] := by
    simp
  rw [hnewf]
  constructor
  · rw [List.map_append, h1]
    simp [range'_one_snoc]
  · intro r hr
    rcases List.mem_append.mp hr with hr | hr
    · exact h2 r hr
    · simp only [List.mem_singleton] at hr
      rw [hr]

theorem editIter_inv (nid : Nat) (cells : List (String × Option Nat))
    (person now : Nat) :
    ∀ (k : Nat) (st : List Row) (n : Nat), 1 ≤ n →
      (st.filter (fun r => r.id = nid)).map Row.version = List.range' 1 n →
      (∀ r ∈ st.filter (fun r => r.id = nid), r.status = some "active") →
      ((editIter nid cells person now k st).filter (fun r => r.id = nid)).map
          Row.version = List.range' 1 (n + k) ∧
        ∀ r ∈ (editIter nid cells person now k st).filter (fun r => r.id = nid),
          r.status = some "active" := by
  intro k
  induction k with
  | zero =>
    intro st n _ h1 h2
    exact ⟨h1, h2⟩
  | succ k ih =>
    intro st n hn h1 h2
    obtain ⟨g1, g2⟩ := editSubmit_step st nid cells person now n hn h1 h2
    have hres := ih (editSubmit st nid cells person now) (n + 1) (by omega) g1 g2
    have harith : n + 1 + k = n + (k + 1) := by omega
    rw [harith] at hres
    exact hres

/-- Claim C5: through the record-save flow, a record submitted without
an id is stored with version 1 and status `active` (at the freshly
allocated id `max(id)+1`), and `k` subsequent edit-flow saves of that id
append versions 2..k+1 — so the versions stored for the id are exactly
1..k+1 with no gaps, each save storing the current maximum version plus
one, all with status `active`. -/
theorem versioning_monotonic (rows0 : List Row)
    (d0cells cells : List (String × Option Nat)) (person now k : Nat) :
    ((createThenEdits rows0 d0cells cells person now k).filter
        (fun r => r.id = get_max_id rows0 + 1)).map Row.version =
      List.range' 1 (k + 1) ∧
    (∀ r ∈ (createThenEdits rows0 d0cells cells person now k).filter
        (fun r => r.id = get_max_id rows0 + 1), r.status = some "active") ∧
    (handle_submit_record rows0
      { id := none, version := none, status := none, cells := d0cells }
      person now).version = 1 ∧
    (handle_submit_record rows0
      { id := none, version := none, status := none, cells := d0cells }
      person now).status = some "active" := by
  have hbase : rows0.filter (fun r => r.id = get_max_id rows0 + 1) = [] := by
    rw [List.filter_eq_nil]
    intro r hr
    have := id_le_get_max_id rows0 r hr
    simp only [decide_eq_true_eq]
    omega
  have hst0 : (submit rows0
      { id := none, version := none, status := none, cells := d0cells } person now).filter
        (fun r => r.id = get_max_id rows0 + 1) =
      [Row.mk (get_max_id rows0 + 1) 1 (some "active") now (some person) d0cells] := by
    rw [submit, List.filter_append, hbase]
    simp [handle_submit_record]
  have h1 : ((submit rows0
      { id := none, version := none, status := none, cells := d0cells } person now).filter
        (fun r => r.id = get_max_id rows0 + 1)).map Row.version = List.range' 1 1 := by
    rw [hst0]; rfl
  have h2 : ∀ r ∈ (submit rows0
      { id := none, version := none, status := none, cells := d0cells } person now).filter
        (fun r => r.id = get_max_id rows0 + 1), r.status = some "active" := by
    intro r hr
    rw [hst0] at hr
    simp only [List.mem_singleton] at hr
    rw [hr]
  have hres := editIter_inv (get_max_id rows0 + 1) cells person now k _ 1
    (by omega) h1 h2
  have harith : 1 + k = k + 1 := by omega
  rw [harith] at hres
  exact ⟨hres.1, hres.2, rfl, rfl⟩

/-- Claim C5, witness: concrete run — one create and two edits starting
from the empty store yield versions 1, 2, 3. -/
theorem versioning_monotonic_witness :
    ((createThenEdits [] [] [] 5 7 2).filter
        (fun r => r.id = get_max_id [] + 1)).map Row.version =
      List.range' 1 3 :=
  (versioning_monotonic [] [] [] 5 7 2).1

/-- Row of a link table as addressed by a `(link_table, source_field,
target_field)` store configuration: the versioning columns plus the two
foreign keys.  `source`/`target` are the values of the configured source
and target columns. -/
structure LinkRow where
  id : Nat
  version : Nat
  status : String
  source : Nat
  target : Nat
  createdBy : Nat
  timestamp : Nat
deriving DecidableEq, Repr

/-- Keep the element with the larger measure (later one wins ties). -/
def pickMaxBy {α : Type} (f : α → Nat) (a : Option α) (r : α) : Option α :=
  match a with
  | none => some r
  | some p => if f p ≤ f r then some r else some p

/-- Element of maximal measure in a list (`ORDER BY f DESC LIMIT 1`). -/
def maxBy {α : Type} (f : α → Nat) (l : List α) : Option α :=
  l.foldl (pickMaxBy f) none

theorem foldl_pickMaxBy_spec {α : Type} (f : α → Nat) (l : List α) :
    ∀ (a : Option α) (r : α), l.foldl (pickMaxBy f) a = some r →
      ((r ∈ l ∨ a = some r) ∧ (∀ x ∈ l, f x ≤ f r) ∧
        (∀ p, a = some p → f p ≤ f r)) := by
  induction l with
  | nil =>
    intro a r h
    simp only [List.foldl_nil] at h
    exact ⟨Or.inr h, by simp, fun p hp => by simp [hp] at h; simp [h]⟩
  | cons x xs ih =>
    intro a r h
    simp only [List.foldl_cons] at h
    obtain ⟨hmem, hmax, hacc⟩ := ih (pickMaxBy f a x) r h
    have hx : f x ≤ f r := by
      rcases a with _ | p
      · exact hacc x rfl
      · by_cases hle : f p ≤ f x
        · exact hacc x (by simp [pickMaxBy, hle])
        · have hp := hacc p (by simp [pickMaxBy, hle])
          omega
    refine ⟨?_, ?_, ?_⟩
    · rcases hmem with hm | hm
      · exact Or.inl (List.mem_cons_of_mem _ hm)
      · rcases a with _ | p
        · simp [pickMaxBy] at hm
          exact Or.inl (by simp [hm])
        · by_cases hle : f p ≤ f x
          · simp [pickMaxBy, hle] at hm
            exact Or.inl (by simp [hm])
          · simp [pickMaxBy, hle] at hm
            exact Or.inr (by simp [hm])
    · intro y hy
      rcases List.mem_cons.mp hy with hy | hy
      · rw [hy]; exact hx
      · exact hmax y hy
    · intro p hp
      subst hp
      by_cases hle : f p ≤ f x
      · omega
      · exact hacc p (by simp [pickMaxBy, hle])

theorem maxBy_spec {α : Type} (f : α → Nat) (l : List α) (r : α)
    (h : maxBy f l = some r) : r ∈ l ∧ ∀ x ∈ l, f x ≤ f r := by
  obtain ⟨hm, hmax, _⟩ := foldl_pickMaxBy_spec f l none r h
  exact ⟨hm.resolve_right (by simp), hmax⟩

theorem maxBy_ne_none {α : Type} (f : α → Nat) (l : List α) (x : α) (hx : x ∈ l) :
    maxBy f l ≠ none := by
  intro h
  induction l generalizing x with
  | nil => exact absurd hx (List.not_mem_nil x)
  | cons y ys ih =>
    have haux : ∀ (m : List α) (p : α), ∃ r, m.foldl (pickMaxBy f) (some p) = some r := by
      intro m
      induction m with
      | nil => intro p; exact ⟨p, rfl⟩
      | cons z zs ihz =>
        intro p
        simp only [List.foldl_cons]
        rcases hc : pickMaxBy f (some p) z with _ | q
        · simp only [pickMaxBy] at hc
          split at hc <;> simp_all
        · exact ihz q
    obtain ⟨r, hr⟩ := haux ys y
    rw [maxBy, List.foldl_cons] at h
    have hy : pickMaxBy f none y = some y := rfl
    rw [hy, hr] at h
    exact Option.noConfusion h

/-- Rows of the link table with the configured source column equal to
the submitting record's id (`WHERE "source_col" = ?`). -/
def linkRowsFor (rows : List LinkRow) (s : Nat) : List LinkRow :=
  rows.filter (fun r => r.source = s)

/-- Distinct link-record ids appearing for a source (the SQL partition). -/
def linkIds (rows : List LinkRow) (s : Nat) : List Nat :=
  ((linkRowsFor rows s).map LinkRow.id).dedup

/-- Latest version of a link record over the whole table
(`SELECT * FROM link_table WHERE id = ? ORDER BY version DESC LIMIT 1`),
the read used when a removal copies the row forward. -/
def latestLinkFor (rows : List LinkRow) (i : Nat) : Option LinkRow :=
  maxBy LinkRow.version (rows.filter (fun r => r.id = i))

/-- Latest version of a link record within the source partition (the
`ROW_NUMBER() OVER (PARTITION BY id ORDER BY version DESC)` ranking of
the rows matching the source). -/
def latestLinkForSrc (rows : List LinkRow) (s i : Nat) : Option LinkRow :=
  maxBy LinkRow.version ((linkRowsFor rows s).filter (fun r => r.id = i))

/-- The `current_links` dict of `handle_submit`: for every link-record id
of the source partition whose top-ranked row is not deleted, the pair
(link id, target). -/
def current_links (rows : List LinkRow) (s : Nat) : List (Nat × Nat) :=
  (linkIds rows s).filterMap (fun i =>
    match latestLinkForSrc rows s i with
    | some r => if r.status ≠ "deleted" then some (i, r.target) else none
    | none => none)

/-- `SELECT MAX(id)` over a link table, 0 when empty. -/
def linkMaxId (rows : List LinkRow) : Nat :=
  rows.foldl (fun a r => max a r.id) 0

/-- Dict lookup `current_links[target]` of `handle_submit`: the Python
dict is built by iterating the query result, a later row with the same
target overwriting an earlier one, so the lookup yields the link id of
the last pair carrying the target. -/
def lastLinkIdFor (rows : List LinkRow) (s t : Nat) : Option Nat :=
  (current_links rows s).foldl (fun a p => if p.2 = t then some p.1 else a) none

/-- The dict's key set `currently_linked_ids`: the distinct targets
whose latest link version is active. -/
def curTargetsOf (rows : List LinkRow) (s : Nat) : List Nat :=
  ((current_links rows s).map Prod.snd).dedup

/-- `ids_to_add = newly_selected_ids - currently_linked_ids`. -/
def toAddOf (rows : List LinkRow) (s : Nat) (desired0 : List Nat) : List Nat :=
  desired0.dedup.filter (fun t => t ∉ curTargetsOf rows s)

/-- `ids_to_remove = currently_linked_ids - newly_selected_ids`
(a set of target ids). -/
def toRemoveTargetsOf (rows : List LinkRow) (s : Nat) (desired0 : List Nat) :
    List Nat :=
  (curTargetsOf rows s).filter (fun t => t ∉ desired0.dedup)

/-- Removal processing of `handle_submit`: for each link-record id to
remove, re-read its latest version in full, increment the version, set
status `deleted`, stamp a fresh timestamp and append — a full-row
copy-forward, never an update. -/
def applyRemovals (rows : List LinkRow) (ids : List Nat) (now : Nat) :
    List LinkRow :=
  ids.foldl (fun st i =>
    match latestLinkFor st i with
    | some r => st ++ [{ r with version := r.version + 1, status := "deleted", timestamp := now }]
    | none => st) rows

/-- Addition processing of `handle_submit`: each new target gets a
brand-new link-record id `max(id) + 1` at version 1, status `active`. -/
def applyAdds (rows : List LinkRow) (s : Nat) (targets : List Nat)
    (person now : Nat) : List LinkRow :=
  targets.foldl (fun st t =>
    st ++ [LinkRow.mk (linkMaxId st + 1) 1 "active" s t person now]) rows

/-- The link-synchronization step of `handle_submit`
(`collaboratorium/form_gen.py`): compute the currently linked targets
from the latest non-deleted version per link id, diff them against the
newly selected ids, append a deleted copy-forward row per removal
(looking the link id up in the `current_links` dict) and a fresh
version-1 active row per addition. -/
def reconcileLinks (rows : List LinkRow) (s : Nat) (desired0 : List Nat)
    (person now : Nat) : List LinkRow :=
  applyAdds
    (applyRemovals rows
      ((toRemoveTargetsOf rows s desired0).filterMap (lastLinkIdFor rows s)) now)
    s (toAddOf rows s desired0) person now

/-- Embedding of `update_links` from `db.py` (unreachable code: its only
caller goes through the undefined `get_connection`): it DELETEs every
link row whose source column equals the record id and reinserts one
`active` row per desired value.  The reinserted rows carry no id,
version or created_by — the SQL insert lists only the two FK columns,
status and timestamp — so those NULL columns are embedded as 0. -/
def update_links (rows : List LinkRow) (recordId : Nat) (vals : List Nat)
    (now : Nat) : List LinkRow :=
  rows.filter (fun r => r.source ≠ recordId) ++
    vals.map (fun t => LinkRow.mk 0 0 "active" recordId t 0 now)

/-- Embedding of `soft_delete_record` from `db.py`:
`UPDATE t SET status = 'deleted' WHERE id = ?` mutates every stored
version of the record in place instead of appending a new version. -/
def soft_delete_record (rows : List Row) (recordId : Nat) : List Row :=
  rows.map (fun r => if r.id = recordId then { r with status := some "deleted" } else r)

/-- Helper link row: link record 1 version 1, active, source 1 target 2. -/
def exLink : LinkRow := LinkRow.mk 1 1 "active" 1 2 1 0

/-- Claim C2: the mutation helpers of `db.py` are not append-only.
`update_links` on a store holding one active link row for record 1,
asked to synchronize to the empty target set, DELETEs the stored row
outright (the result no longer contains it); `soft_delete_record`
UPDATEs the stored row in place, so the prior row is not preserved
byte-identical and no new row is appended. -/
theorem update_links_not_append_only :
    update_links [exLink] 1 [] 0 = [] ∧
      exLink ∉ update_links [exLink] 1 [] 0 ∧
      soft_delete_record [exRowV1] 1 =
        [Row.mk 1 1 (some "deleted") 0 none []] ∧
      exRowV1 ∉ soft_delete_record [exRowV1] 1 ∧
      (soft_delete_record [exRowV1] 1).length = 1 := by
  decide

/-- Same-entity consistency of a link table: all stored versions of a
link record carry the same source and target (the reconciliation engine
only ever copies these columns forward). -/
def ConsistentLinks (rows : List LinkRow) : Prop :=
  ∀ r ∈ rows, ∀ w ∈ rows, r.id = w.id → r.source = w.source ∧ r.target = w.target

theorem le_foldl_maxL (l : List LinkRow) :
    ∀ a : Nat, a ≤ l.foldl (fun a r => max a r.id) a := by
  induction l with
  | nil => intro a; simp
  | cons x xs ih =>
    intro a
    calc a ≤ max a x.id := Nat.le_max_left _ _
    _ ≤ xs.foldl (fun a r => max a r.id) (max a x.id) := ih _

theorem mem_le_foldl_maxL (l : List LinkRow) (r : LinkRow) (h : r ∈ l) :
    ∀ a : Nat, r.id ≤ l.foldl (fun a r => max a r.id) a := by
  induction l with
  | nil => exact absurd h (List.not_mem_nil r)
  | cons x xs ih =>
    intro a
    rcases List.mem_cons.mp h with h | h
    · rw [h]
      simp only [List.foldl_cons]
      calc x.id ≤ max a x.id := Nat.le_max_right _ _
      _ ≤ xs.foldl (fun a r => max a r.id) (max a x.id) := le_foldl_maxL _ _
    · exact ih h (max a x.id)

theorem id_le_linkMaxId (l : List LinkRow) (r : LinkRow) (h : r ∈ l) :
    r.id ≤ linkMaxId l :=
  mem_le_foldl_maxL l r h 0

theorem maxBy_append_one {α : Type} (f : α → Nat) (l : List α) (d : α) :
    maxBy f (l ++ [d]) = pickMaxBy f (maxBy f l) d := by
  rw [maxBy, List.foldl_append]
  rfl

theorem mem_linkIds (rows : List LinkRow) (s i : Nat) :
    i ∈ linkIds rows s ↔ ∃ w ∈ rows, w.source = s ∧ w.id = i := by
  simp only [linkIds, List.mem_dedup, List.mem_map, linkRowsFor, List.mem_filter,
    decide_eq_true_eq]
  constructor
  · rintro ⟨w, ⟨hw, hsrc⟩, hid⟩
    exact ⟨w, hw, hsrc, hid⟩
  · rintro ⟨w, hw, hsrc, hid⟩
    exact ⟨w, ⟨hw, hsrc⟩, hid⟩

theorem mem_current_links (rows : List LinkRow) (s : Nat) (q : Nat × Nat) :
    q ∈ current_links rows s ↔
      q.1 ∈ linkIds rows s ∧ ∃ r, latestLinkForSrc rows s q.1 = some r ∧
        r.status ≠ "deleted" ∧ r.target = q.2 := by
  rw [current_links, List.mem_filterMap]
  constructor
  · rintro ⟨i, hi, hf⟩
    rcases hcase : latestLinkForSrc rows s i with _ | r
    · rw [hcase] at hf
      exact absurd hf (by simp)
    · rw [hcase] at hf
      by_cases hs : r.status = "deleted"
      · simp [hs] at hf
      · simp only [ne_eq, hs, not_false_iff, if_true] at hf
        have hq : q = (i, r.target) := (Option.some.inj hf).symm
        rw [hq]
        exact ⟨hi, r, hcase, hs, rfl⟩
  · rintro ⟨hi, r, hlat, hs, ht⟩
    refine ⟨q.1, hi, ?_⟩
    rw [hlat]
    simp only [ne_eq, hs, not_false_iff, if_true, Option.some.injEq]
    rw [ht]

theorem latestLinkFor_mem (st : List LinkRow) (i : Nat) (r : LinkRow)
    (h : latestLinkFor st i = some r) : r ∈ st ∧ r.id = i := by
  obtain ⟨hm, _⟩ := maxBy_spec LinkRow.version _ r h
  rw [List.mem_filter] at hm
  exact ⟨hm.1, by simpa using hm.2⟩

theorem latestLinkFor_max (st : List LinkRow) (i : Nat) (r : LinkRow)
    (h : latestLinkFor st i = some r) :
    ∀ x ∈ st, x.id = i → x.version ≤ r.version := by
  obtain ⟨_, hmax⟩ := maxBy_spec LinkRow.version _ r h
  intro x hx hid
  exact hmax x (List.mem_filter.mpr ⟨hx, by simpa using hid⟩)

theorem latestLinkFor_append_ne (st : List LinkRow) (d : LinkRow) (i : Nat)
    (h : d.id ≠ i) : latestLinkFor (st ++ [d]) i = latestLinkFor st i := by
  rw [latestLinkFor, latestLinkFor, List.filter_append]
  have hd : List.filter (fun r => decide (r.id = i)) [d] = [] := by simp [h]
  rw [hd, List.append_nil]

theorem latestLinkForSrc_append_ne (st : List LinkRow) (d : LinkRow) (s i : Nat)
    (h : d.id ≠ i) : latestLinkForSrc (st ++ [d]) s i = latestLinkForSrc st s i := by
  by_cases hds : d.source = s <;>
    simp [latestLinkForSrc, linkRowsFor, List.filter_append, hds, h]

theorem mem_linkIds_append (st : List LinkRow) (d : LinkRow) (s i : Nat) :
    i ∈ linkIds (st ++ [d]) s ↔ i ∈ linkIds st s ∨ (d.source = s ∧ d.id = i) := by
  rw [mem_linkIds, mem_linkIds]
  constructor
  · rintro ⟨w, hw, hsrc, hid⟩
    rcases List.mem_append.mp hw with h | h
    · exact Or.inl ⟨w, h, hsrc, hid⟩
    · simp only [List.mem_singleton] at h
      subst h
      exact Or.inr ⟨hsrc, hid⟩
  · rintro (⟨w, hw, hsrc, hid⟩ | ⟨hsrc, hid⟩)
    · exact ⟨w, List.mem_append_left _ hw, hsrc, hid⟩
    · exact ⟨d, List.mem_append_right _ (List.mem_singleton_self d), hsrc, hid⟩

theorem latestLinkForSrc_append_del (st : List LinkRow) (s i : Nat)
    (r d : LinkRow) (hlat : latestLinkFor st i = some r) (hdid : d.id = i)
    (hdsrc : d.source = s) (hver : r.version < d.version) :
    latestLinkForSrc (st ++ [d]) s i = some d := by
  rw [latestLinkForSrc, linkRowsFor, List.filter_append, List.filter_append]
  have h1 : List.filter (fun y => decide (y.id = i))
      (List.filter (fun x => decide (x.source = s)) [d]) = [d] := by
    simp [hdid, hdsrc]
  rw [h1, maxBy_append_one]
  rcases hm : maxBy LinkRow.version
      (List.filter (fun y => decide (y.id = i))
        (List.filter (fun x => decide (x.source = s)) st)) with _ | p
  · rfl
  · obtain ⟨hpmem, _⟩ := maxBy_spec LinkRow.version _ p hm
    rw [List.mem_filter, List.mem_filter] at hpmem
    have hpst : p ∈ st := hpmem.1.1
    have hpid : p.id = i := by simpa using hpmem.2
    have hple : p.version ≤ r.version := latestLinkFor_max st i r hlat p hpst hpid
    simp [pickMaxBy, Nat.le_of_lt (Nat.lt_of_le_of_lt hple hver)]

theorem latestLinkForSrc_append_fresh (st : List LinkRow) (s : Nat) (d : LinkRow)
    (hfresh : ∀ x ∈ st, x.id ≠ d.id) (hdsrc : d.source = s) :
    latestLinkForSrc (st ++ [d]) s d.id = some d := by
  rw [latestLinkForSrc, linkRowsFor, List.filter_append, List.filter_append]
  have h0 : List.filter (fun y => decide (y.id = d.id))
      (List.filter (fun x => decide (x.source = s)) st) = [] := by
    rw [List.filter_eq_nil]
    intro x hx
    rw [List.mem_filter] at hx
    simp only [decide_eq_true_eq]
    exact hfresh x hx.1
  have h1 : List.filter (fun y => decide (y.id = d.id))
      (List.filter (fun x => decide (x.source = s)) [d]) = [d] := by
    simp [hdsrc]
  rw [h0, h1]
  rfl

theorem current_links_append_del (st : List LinkRow) (s i : Nat) (r : LinkRow)
    (now : Nat) (hlat : latestLinkFor st i = some r) (hsrc : r.source = s) :
    ∀ q : Nat × Nat,
      q ∈ current_links
        (st ++ [{ r with version := r.version + 1, status := "deleted", timestamp := now }]) s ↔
        (q ∈ current_links st s ∧ q.1 ≠ i) := by
  intro q
  obtain ⟨hrst, hrid⟩ := latestLinkFor_mem st i r hlat
  by_cases hqi : q.1 = i
  · constructor
    · intro hq
      rw [mem_current_links] at hq
      obtain ⟨_, r', hlat', hs', _⟩ := hq
      rw [hqi] at hlat'
      have hd : latestLinkForSrc
          (st ++ [{ r with version := r.version + 1, status := "deleted", timestamp := now }]) s i =
          some { r with version := r.version + 1, status := "deleted", timestamp := now } :=
        latestLinkForSrc_append_del st s i r _ hlat hrid hsrc (by simp)
      rw [hd] at hlat'
      have : r' = { r with version := r.version + 1, status := "deleted", timestamp := now } :=
        (Option.some.inj hlat').symm
      rw [this] at hs'
      exact absurd rfl hs'
    · rintro ⟨_, hne⟩
      exact absurd hqi hne
  · rw [mem_current_links, mem_current_links]
    have h1 : latestLinkForSrc
        (st ++ [{ r with version := r.version + 1, status := "deleted", timestamp := now }]) s q.1 =
        latestLinkForSrc st s q.1 :=
      latestLinkForSrc_append_ne st _ s q.1 (by simpa [hrid] using fun h => hqi h.symm)
    have h2 : q.1 ∈ linkIds
        (st ++ [{ r with version := r.version + 1, status := "deleted", timestamp := now }]) s ↔
        q.1 ∈ linkIds st s := by
      rw [mem_linkIds_append]
      constructor
      · rintro (h | ⟨_, hid⟩)
        · exact h
        · exact absurd (by simpa [hrid] using hid.symm) hqi
      · exact Or.inl
    rw [h1, h2]
    exact ⟨fun h => ⟨h, hqi⟩, fun h => h.1⟩

theorem current_links_append_new (st : List LinkRow) (s t person now : Nat) :
    ∀ q : Nat × Nat,
      q ∈ current_links (st ++ [LinkRow.mk (linkMaxId st + 1) 1 "active" s t person now]) s ↔
        (q ∈ current_links st s ∨ q = (linkMaxId st + 1, t)) := by
  intro q
  have hfresh : ∀ x ∈ st, x.id ≠ linkMaxId st + 1 := by
    intro x hx h
    have := id_le_linkMaxId st x hx
    omega
  by_cases hqn : q.1 = linkMaxId st + 1
  · have hd : latestLinkForSrc
        (st ++ [LinkRow.mk (linkMaxId st + 1) 1 "active" s t person now]) s (linkMaxId st + 1) =
        some (LinkRow.mk (linkMaxId st + 1) 1 "active" s t person now) :=
      latestLinkForSrc_append_fresh st s _ hfresh rfl
    constructor
    · intro hq
      rw [mem_current_links] at hq
      obtain ⟨_, r', hlat', _, ht'⟩ := hq
      rw [hqn] at hlat'
      rw [hd] at hlat'
      have hr' : r' = LinkRow.mk (linkMaxId st + 1) 1 "active" s t person now :=
        (Option.some.inj hlat').symm
      right
      have hq2 : q.2 = t := by rw [← ht', hr']
      calc q = (q.1, q.2) := rfl
      _ = (linkMaxId st + 1, t) := by rw [hqn, hq2]
    · rintro (hq | hq)
      · exfalso
        rw [mem_current_links] at hq
        obtain ⟨hid, _⟩ := hq
        rw [mem_linkIds] at hid
        obtain ⟨w, hw, _, hwid⟩ := hid
        exact hfresh w hw (by rw [hwid, hqn])
      · rw [mem_current_links]
        rw [hq]
        refine ⟨?_, LinkRow.mk (linkMaxId st + 1) 1 "active" s t person now, ?_, ?_, rfl⟩
        · rw [mem_linkIds_append]
          exact Or.inr ⟨rfl, rfl⟩
        · exact hd
        · simp
  · rw [mem_current_links, mem_current_links]
    have h1 : latestLinkForSrc
        (st ++ [LinkRow.mk (linkMaxId st + 1) 1 "active" s t person now]) s q.1 =
        latestLinkForSrc st s q.1 :=
      latestLinkForSrc_append_ne st _ s q.1 (fun h => hqn h.symm)
    have h2 : q.1 ∈ linkIds
        (st ++ [LinkRow.mk (linkMaxId st + 1) 1 "active" s t person now]) s ↔
        q.1 ∈ linkIds st s := by
      rw [mem_linkIds_append]
      constructor
      · rintro (h | ⟨_, hid⟩)
        · exact h
        · exact absurd hid.symm hqn
      · exact Or.inl
    rw [h1, h2]
    constructor
    · exact fun h => Or.inl h
    · rintro (h | h)
      · exact h
      · exact absurd (by rw [h]) hqn


theorem applyRemovals_current (s now : Nat) :
    ∀ (I : List Nat) (st : List LinkRow), I.Nodup →
      (∀ i ∈ I, ∃ r, latestLinkFor st i = some r ∧ r.source = s) →
      ∀ q : Nat × Nat, q ∈ current_links (applyRemovals st I now) s ↔
        (q ∈ current_links st s ∧ q.1 ∉ I) := by
  intro I
  induction I with
  | nil =>
    intro st _ _ q
    simp [applyRemovals]
  | cons i I' ih =>
    intro st hnd hex q
    obtain ⟨r, hr, hrsrc⟩ := hex i (List.mem_cons_self i I')
    have hstep : applyRemovals st (i :: I') now =
        applyRemovals
          (st ++ [{ r with version := r.version + 1, status := "deleted", timestamp := now }])
          I' now := by
      rw [applyRemovals, List.foldl_cons, hr]
      rfl
    have hrid : r.id = i := (latestLinkFor_mem st i r hr).2
    have hnd' : I'.Nodup := (List.nodup_cons.mp hnd).2
    have hinotin : i ∉ I' := (List.nodup_cons.mp hnd).1
    have hex' : ∀ j ∈ I', ∃ r', latestLinkFor
        (st ++ [{ r with version := r.version + 1, status := "deleted", timestamp := now }]) j =
          some r' ∧ r'.source = s := by
      intro j hj
      obtain ⟨r', hr', hsrc'⟩ := hex j (List.mem_cons_of_mem _ hj)
      refine ⟨r', ?_, hsrc'⟩
      rw [latestLinkFor_append_ne]
      · exact hr'
      · simp only [hrid]
        intro h
        rw [h] at hinotin
        exact hinotin hj
    rw [hstep]
    rw [ih _ hnd' hex' q]
    rw [current_links_append_del st s i r now hr hrsrc q]
    constructor
    · rintro ⟨⟨hq, hne⟩, hnotin⟩
      refine ⟨hq, ?_⟩
      intro hmem
      rcases List.mem_cons.mp hmem with h | h
      · exact hne h
      · exact hnotin h
    · rintro ⟨hq, hnotin⟩
      exact ⟨⟨hq, fun h => hnotin (h ▸ List.mem_cons_self i I')⟩,
        fun h => hnotin (List.mem_cons_of_mem _ h)⟩

theorem applyAdds_target (s person now : Nat) :
    ∀ (A : List Nat) (st : List LinkRow) (u : Nat),
      (∃ q ∈ current_links (applyAdds st s A person now) s, q.2 = u) ↔
        ((∃ q ∈ current_links st s, q.2 = u) ∨ u ∈ A) := by
  intro A
  induction A with
  | nil =>
    intro st u
    simp [applyAdds]
  | cons t A' ih =>
    intro st u
    have hstep : applyAdds st s (t :: A') person now =
        applyAdds (st ++ [LinkRow.mk (linkMaxId st + 1) 1 "active" s t person now])
          s A' person now := by
      rw [applyAdds, List.foldl_cons]
      rfl
    rw [hstep, ih]
    constructor
    · rintro (⟨q, hq, hqu⟩ | hu)
      · rcases (current_links_append_new st s t person now q).mp hq with h | h
        · exact Or.inl ⟨q, h, hqu⟩
        · right
          rw [h] at hqu
          rw [← hqu]
          exact List.mem_cons_self t A'
      · exact Or.inr (List.mem_cons_of_mem _ hu)
    · rintro (⟨q, hq, hqu⟩ | hu)
      · exact Or.inl ⟨q, (current_links_append_new st s t person now q).mpr (Or.inl hq), hqu⟩
      · rcases List.mem_cons.mp hu with h | h
        · left
          refine ⟨(linkMaxId st + 1, t),
            (current_links_append_new st s t person now _).mpr (Or.inr rfl), ?_⟩
          rw [h]
        · exact Or.inr h

theorem filterMap_fst_nodup (l : List Nat) (f : Nat → Option (Nat × Nat))
    (hf : ∀ i p, f i = some p → p.1 = i) (hl : l.Nodup) :
    ((l.filterMap f).map Prod.fst).Nodup ∧ ∀ q ∈ l.filterMap f, q.1 ∈ l := by
  induction l with
  | nil => simp
  | cons i l' ih =>
    obtain ⟨hni, hl'⟩ := List.nodup_cons.mp hl
    obtain ⟨ihn, ihm⟩ := ih hl'
    rcases hc : f i with _ | p
    · rw [List.filterMap_cons_none hc]
      refine ⟨ihn, ?_⟩
      intro q hq
      exact List.mem_cons_of_mem _ (ihm q hq)
    · rw [List.filterMap_cons_some hc]
      have hpi : p.1 = i := hf i p hc
      constructor
      · rw [List.map_cons, List.nodup_cons]
        refine ⟨?_, ihn⟩
        intro hmem
        obtain ⟨q, hq, hqp⟩ := List.mem_map.mp hmem
        have := ihm q hq
        rw [hqp, hpi] at this
        exact hni this
      · intro q hq
        rcases List.mem_cons.mp hq with h | h
        · rw [h, hpi]
          exact List.mem_cons_self i l'
        · exact List.mem_cons_of_mem _ (ihm q h)

theorem current_links_fst_nodup (rows : List LinkRow) (s : Nat) :
    ((current_links rows s).map Prod.fst).Nodup := by
  rw [current_links]
  refine (filterMap_fst_nodup _ _ ?_ (List.nodup_dedup _)).1
  intro i p hp
  rcases hc : latestLinkForSrc rows s i with _ | r
  · rw [hc] at hp
    exact absurd hp (by simp)
  · rw [hc] at hp
    by_cases hs : r.status = "deleted"
    · simp [hs] at hp
    · simp only [ne_eq, hs, not_false_iff, if_true, Option.some.injEq] at hp
      rw [← hp]

theorem pair_eq_of_proj_nodup (g : Nat × Nat → Nat) (l : List (Nat × Nat))
    (h : (l.map g).Nodup) :
    ∀ q ∈ l, ∀ q' ∈ l, g q = g q' → q = q' := by
  induction l with
  | nil => intro q hq; exact absurd hq (List.not_mem_nil q)
  | cons x xs ih =>
    rw [List.map_cons, List.nodup_cons] at h
    obtain ⟨hx, hxs⟩ := h
    intro q hq q' hq' hg
    rcases List.mem_cons.mp hq with h1 | h1 <;> rcases List.mem_cons.mp hq' with h2 | h2
    · rw [h1, h2]
    · exfalso
      apply hx
      have hgx : g q' = g x := by rw [← hg, h1]
      exact List.mem_map.mpr ⟨q', h2, hgx⟩
    · exfalso
      apply hx
      rw [h2] at hg
      exact List.mem_map.mpr ⟨q, h1, hg⟩
    · exact ih hxs q h1 q' h2 hg

theorem foldl_dict_stays (t : Nat) (xs : List (Nat × Nat)) (v : Nat)
    (h : ∀ q ∈ xs, q.2 = t → q.1 = v) :
    xs.foldl (fun a x => if x.2 = t then some x.1 else a) (some v) = some v := by
  induction xs with
  | nil => rfl
  | cons x xs ih =>
    rw [List.foldl_cons]
    by_cases hxt : x.2 = t
    · rw [if_pos hxt, h x (List.mem_cons_self x xs) hxt]
      exact ih (fun q hq => h q (List.mem_cons_of_mem _ hq))
    · rw [if_neg hxt]
      exact ih (fun q hq => h q (List.mem_cons_of_mem _ hq))

theorem foldl_dict_some (t : Nat) :
    ∀ (l : List (Nat × Nat)) (a : Option Nat) (i : Nat),
      l.foldl (fun a x => if x.2 = t then some x.1 else a) a = some i →
      (∃ p ∈ l, p.2 = t ∧ p.1 = i) ∨ a = some i := by
  intro l
  induction l with
  | nil =>
    intro a i h
    exact Or.inr h
  | cons x xs ih =>
    intro a i h
    rw [List.foldl_cons] at h
    rcases ih _ i h with ⟨p, hp, hpt, hpi⟩ | hacc
    · exact Or.inl ⟨p, List.mem_cons_of_mem _ hp, hpt, hpi⟩
    · by_cases hxt : x.2 = t
      · rw [if_pos hxt] at hacc
        exact Or.inl ⟨x, List.mem_cons_self x xs, hxt, (Option.some.inj hacc)⟩
      · rw [if_neg hxt] at hacc
        exact Or.inr hacc

theorem foldl_dict_lookup (t : Nat) :
    ∀ (l : List (Nat × Nat)) (a : Option Nat) (p : Nat × Nat), p ∈ l → p.2 = t →
      (∀ q ∈ l, ∀ q' ∈ l, q.2 = q'.2 → q = q') →
      l.foldl (fun a x => if x.2 = t then some x.1 else a) a = some p.1 := by
  intro l
  induction l with
  | nil =>
    intro a p hp
    exact absurd hp (List.not_mem_nil p)
  | cons x xs ih =>
    intro a p hp hpt huniq
    rw [List.foldl_cons]
    by_cases hxt : x.2 = t
    · have hpx : p = x := huniq p hp x (List.mem_cons_self x xs) (by rw [hpt, hxt])
      rw [if_pos hxt, hpx]
      exact foldl_dict_stays t xs x.1 (fun q hq hqt => by
        have : q = x := huniq q (List.mem_cons_of_mem _ hq) x (List.mem_cons_self x xs)
          (by rw [hqt, hxt])
        rw [this])
    · have hpx : p ≠ x := fun h => hxt (by rw [← h]; exact hpt)
      have hpxs : p ∈ xs := (List.mem_cons.mp hp).resolve_left hpx
      rw [if_neg hxt]
      exact ih a p hpxs hpt (fun q hq q' hq' =>
        huniq q (List.mem_cons_of_mem _ hq) q' (List.mem_cons_of_mem _ hq'))

theorem lastLinkIdFor_eq (rows : List LinkRow) (s : Nat)
    (hsnd : ((current_links rows s).map Prod.snd).Nodup)
    (p : Nat × Nat) (hp : p ∈ current_links rows s) :
    lastLinkIdFor rows s p.2 = some p.1 := by
  rw [lastLinkIdFor]
  exact foldl_dict_lookup p.2 (current_links rows s) none p hp rfl
    (pair_eq_of_proj_nodup Prod.snd _ hsnd)

theorem lastLinkIdFor_some (rows : List LinkRow) (s t i : Nat)
    (h : lastLinkIdFor rows s t = some i) :
    ∃ p ∈ current_links rows s, p.2 = t ∧ p.1 = i := by
  rcases foldl_dict_some t (current_links rows s) none i h with hp | habs
  · exact hp
  · exact absurd habs (by simp)

/-- The target-set effect of one `reconcileLinks` run: afterwards the
active targets of the source are exactly the desired ids.  Hypotheses:
all versions of a link record agree on source and target, and no two
active link records of the source share a target (both hold for every
store the engine itself builds). -/
theorem reconcile_current_targets (rows : List LinkRow) (s : Nat) (D : List Nat)
    (person now : Nat) (hcons : ConsistentLinks rows)
    (hsnd : ((current_links rows s).map Prod.snd).Nodup) :
    ∀ u : Nat,
      (∃ q ∈ current_links (reconcileLinks rows s D person now) s, q.2 = u) ↔
        u ∈ D := by
  intro u
  have hRemChar : ∀ i : Nat,
      i ∈ (toRemoveTargetsOf rows s D).filterMap (lastLinkIdFor rows s) ↔
        ∃ p ∈ current_links rows s, p.1 = i ∧ p.2 ∉ D.dedup := by
    intro i
    rw [List.mem_filterMap]
    constructor
    · rintro ⟨t, ht, hlook⟩
      obtain ⟨p, hp, hpt, hpi⟩ := lastLinkIdFor_some rows s t i hlook
      rw [toRemoveTargetsOf, List.mem_filter] at ht
      obtain ⟨_, htD⟩ := ht
      refine ⟨p, hp, hpi, ?_⟩
      rw [hpt]
      simpa using htD
    · rintro ⟨p, hp, hpi, hpD⟩
      refine ⟨p.2, ?_, ?_⟩
      · rw [toRemoveTargetsOf, List.mem_filter]
        refine ⟨?_, by simpa using hpD⟩
        rw [curTargetsOf, List.mem_dedup]
        exact List.mem_map.mpr ⟨p, hp, rfl⟩
      · rw [lastLinkIdFor_eq rows s hsnd p hp, hpi]
  have hRemNodup : ((toRemoveTargetsOf rows s D).filterMap (lastLinkIdFor rows s)).Nodup := by
    have hbase : (toRemoveTargetsOf rows s D).Nodup :=
      (List.nodup_dedup _).filter _
    refine List.Nodup.filterMap ?_ hbase
    intro t t' i hti ht'i
    obtain ⟨p, hp, hpt, hpi⟩ := lastLinkIdFor_some rows s t i hti
    obtain ⟨p', hp', hpt', hpi'⟩ := lastLinkIdFor_some rows s t' i ht'i
    have : p = p' := pair_eq_of_proj_nodup Prod.fst _ (current_links_fst_nodup rows s)
      p hp p' hp' (by rw [hpi, hpi'])
    rw [← hpt, ← hpt', this]
  have hRemPre : ∀ i ∈ (toRemoveTargetsOf rows s D).filterMap (lastLinkIdFor rows s),
      ∃ r, latestLinkFor rows i = some r ∧ r.source = s := by
    intro i hi
    obtain ⟨p, hp, hpi, _⟩ := (hRemChar i).mp hi
    rw [mem_current_links] at hp
    obtain ⟨hpid, _⟩ := hp
    rw [mem_linkIds] at hpid
    obtain ⟨w, hw, hwsrc, hwid⟩ := hpid
    rcases hcase : latestLinkFor rows p.1 with _ | r
    · exfalso
      exact maxBy_ne_none LinkRow.version _ w
        (List.mem_filter.mpr ⟨hw, by simpa using hwid⟩) hcase
    · obtain ⟨hrmem, hrid⟩ := latestLinkFor_mem rows p.1 r hcase
      refine ⟨r, by rw [← hpi]; exact hcase, ?_⟩
      have := hcons r hrmem w hw (by rw [hrid, hwid])
      rw [this.1, hwsrc]
  have hAfter : ∀ q : Nat × Nat,
      q ∈ current_links
        (applyRemovals rows ((toRemoveTargetsOf rows s D).filterMap (lastLinkIdFor rows s)) now) s ↔
        (q ∈ current_links rows s ∧
          q.1 ∉ (toRemoveTargetsOf rows s D).filterMap (lastLinkIdFor rows s)) :=
    applyRemovals_current s now _ rows hRemNodup hRemPre
  have hAT := applyAdds_target s person now (toAddOf rows s D)
    (applyRemovals rows ((toRemoveTargetsOf rows s D).filterMap (lastLinkIdFor rows s)) now) u
  rw [reconcileLinks, hAT]
  constructor
  · rintro (⟨q, hq, hqu⟩ | hadd)
    · rw [hAfter] at hq
      obtain ⟨hqcur, hqnot⟩ := hq
      by_contra huD
      apply hqnot
      rw [hRemChar]
      refine ⟨q, hqcur, rfl, ?_⟩
      rw [hqu, List.mem_dedup]
      exact huD
    · rw [toAddOf, List.mem_filter] at hadd
      exact List.mem_dedup.mp hadd.1
  · intro huD
    by_cases hucur : u ∈ (current_links rows s).map Prod.snd
    · left
      obtain ⟨q, hq, hqu⟩ := List.mem_map.mp hucur
      refine ⟨q, ?_, hqu⟩
      rw [hAfter]
      refine ⟨hq, ?_⟩
      intro hrem
      rw [hRemChar] at hrem
      obtain ⟨p, hp, hpi, hpD⟩ := hrem
      have hpq : p = q := pair_eq_of_proj_nodup Prod.fst _ (current_links_fst_nodup rows s)
        p hp q hq hpi
      apply hpD
      rw [hpq, hqu]
      exact List.mem_dedup.mpr huD
    · right
      rw [toAddOf, List.mem_filter]
      refine ⟨List.mem_dedup.mpr huD, ?_⟩
      simpa [curTargetsOf, List.mem_dedup] using hucur

/-- Claim C3: running the link synchronization twice in immediate
succession with the same desired target set is a no-op the second time:
the second run computes empty `ids_to_add` and `ids_to_remove` sets and
inserts zero rows (the store is unchanged).  Hypotheses: all versions
of a link record agree on source and target, and no two active link
records of the source share a target — invariants every
engine-produced store satisfies. -/
theorem reconcileLinks_idempotent (rows : List LinkRow) (s : Nat) (D : List Nat)
    (person now1 now2 : Nat) (hcons : ConsistentLinks rows)
    (hsnd : ((current_links rows s).map Prod.snd).Nodup) :
    toAddOf (reconcileLinks rows s D person now1) s D = [] ∧
      toRemoveTargetsOf (reconcileLinks rows s D person now1) s D = [] ∧
      reconcileLinks (reconcileLinks rows s D person now1) s D person now2 =
        reconcileLinks rows s D person now1 := by
  have hM := reconcile_current_targets rows s D person now1 hcons hsnd
  have hAdd : toAddOf (reconcileLinks rows s D person now1) s D = [] := by
    rw [toAddOf, List.filter_eq_nil]
    intro t ht
    have htD : t ∈ D := List.mem_dedup.mp ht
    obtain ⟨q, hq, hqt⟩ := (hM t).mpr htD
    simp only [decide_eq_true_eq, not_not, Decidable.not_not]
    rw [curTargetsOf, List.mem_dedup]
    exact List.mem_map.mpr ⟨q, hq, hqt⟩
  have hRem : toRemoveTargetsOf (reconcileLinks rows s D person now1) s D = [] := by
    rw [toRemoveTargetsOf, List.filter_eq_nil]
    intro t ht
    rw [curTargetsOf, List.mem_dedup] at ht
    obtain ⟨q, hq, hqt⟩ := List.mem_map.mp ht
    have htD : t ∈ D := (hM t).mp ⟨q, hq, hqt⟩
    simp only [decide_eq_true_eq, not_not, Decidable.not_not]
    exact List.mem_dedup.mpr htD
  refine ⟨hAdd, hRem, ?_⟩
  rw [reconcileLinks, hRem, hAdd]
  rfl

/-- Claim C3, witness: a concrete double run (empty store, source 1,
desired targets 2 and 3) where the second run leaves the store as is. -/
theorem reconcileLinks_idempotent_witness :
    toAddOf (reconcileLinks [] 1 [2, 3] 9 0) 1 [2, 3] = [] ∧
      toRemoveTargetsOf (reconcileLinks [] 1 [2, 3] 9 0) 1 [2, 3] = [] ∧
      reconcileLinks (reconcileLinks [] 1 [2, 3] 9 0) 1 [2, 3] 9 1 =
        reconcileLinks [] 1 [2, 3] 9 0 :=
  reconcileLinks_idempotent [] 1 [2, 3] 9 0 1
    (fun r hr => absurd hr (List.not_mem_nil r)) (by decide)

/-- Claim C4: starting from an empty link table, reconciling source `S`
to targets `A, B` stores two active version-1 link rows; reconciling to
`A` alone then appends exactly one new row — a full copy of B's link
row with the version incremented, status `deleted` and the fresh
timestamp — leaves every row of A's link record untouched, and leaves
`A` as the only current active target of `S`. -/
theorem reconcile_remove_exact (S A B person t1 t2 : Nat) (hAB : A ≠ B) :
    reconcileLinks [] S [A, B] person t1 =
      [LinkRow.mk 1 1 "active" S A person t1, LinkRow.mk 2 1 "active" S B person t1] ∧
    reconcileLinks (reconcileLinks [] S [A, B] person t1) S [A] person t2 =
      reconcileLinks [] S [A, B] person t1 ++
        [{ LinkRow.mk 2 1 "active" S B person t1 with
            version := 2, status := "deleted", timestamp := t2 }] ∧
    (reconcileLinks (reconcileLinks [] S [A, B] person t1) S [A] person t2).filter
        (fun r => r.id = 1) =
      (reconcileLinks [] S [A, B] person t1).filter (fun r => r.id = 1) ∧
    ∀ u : Nat,
      (∃ q ∈ current_links
          (reconcileLinks (reconcileLinks [] S [A, B] person t1) S [A] person t2) S,
        q.2 = u) ↔ u = A := by
  have hBA : B ≠ A := Ne.symm hAB
  have hdedupAB : ([A, B] : List Nat).dedup = [A, B] := by
    rw [List.dedup_cons_of_not_mem (by simp [hAB])]
    simp
  have e3 : toRemoveTargetsOf [] S [A, B] = [] := rfl
  have e4 : toAddOf [] S [A, B] = [A, B] := by
    rw [toAddOf, hdedupAB]
    simp [curTargetsOf, current_links, linkIds, linkRowsFor]
  have h1 : reconcileLinks [] S [A, B] person t1 =
      [LinkRow.mk 1 1 "active" S A person t1, LinkRow.mk 2 1 "active" S B person t1] := by
    rw [reconcileLinks, e3, e4]
    rfl
  have hLR : linkRowsFor
      [LinkRow.mk 1 1 "active" S A person t1, LinkRow.mk 2 1 "active" S B person t1] S =
      [LinkRow.mk 1 1 "active" S A person t1, LinkRow.mk 2 1 "active" S B person t1] := by
    simp [linkRowsFor]
  have hIds : linkIds
      [LinkRow.mk 1 1 "active" S A person t1, LinkRow.mk 2 1 "active" S B person t1] S =
      [1, 2] := by
    rw [linkIds, hLR]
    rfl
  have hSrc1 : latestLinkForSrc
      [LinkRow.mk 1 1 "active" S A person t1, LinkRow.mk 2 1 "active" S B person t1] S 1 =
      some (LinkRow.mk 1 1 "active" S A person t1) := by
    rw [latestLinkForSrc, hLR]
    rfl
  have hSrc2 : latestLinkForSrc
      [LinkRow.mk 1 1 "active" S A person t1, LinkRow.mk 2 1 "active" S B person t1] S 2 =
      some (LinkRow.mk 2 1 "active" S B person t1) := by
    rw [latestLinkForSrc, hLR]
    rfl
  have hCur : current_links
      [LinkRow.mk 1 1 "active" S A person t1, LinkRow.mk 2 1 "active" S B person t1] S =
      [(1, A), (2, B)] := by
    rw [current_links, hIds]
    simp only [List.filterMap_cons, List.filterMap_nil, hSrc1, hSrc2]
    rfl
  have hTargets : curTargetsOf
      [LinkRow.mk 1 1 "active" S A person t1, LinkRow.mk 2 1 "active" S B person t1] S =
      [A, B] := by
    rw [curTargetsOf, hCur]
    exact hdedupAB
  have hToAdd2 : toAddOf
      [LinkRow.mk 1 1 "active" S A person t1, LinkRow.mk 2 1 "active" S B person t1] S [A] =
      [] := by
    rw [toAddOf, hTargets]
    simp
  have hToRem2 : toRemoveTargetsOf
      [LinkRow.mk 1 1 "active" S A person t1, LinkRow.mk 2 1 "active" S B person t1] S [A] =
      [B] := by
    rw [toRemoveTargetsOf, hTargets]
    simp [hBA]
  have hLook : lastLinkIdFor
      [LinkRow.mk 1 1 "active" S A person t1, LinkRow.mk 2 1 "active" S B person t1] S B =
      some 2 := by
    rw [lastLinkIdFor, hCur]
    simp [hAB]
  have hRemIds : (toRemoveTargetsOf
        [LinkRow.mk 1 1 "active" S A person t1, LinkRow.mk 2 1 "active" S B person t1] S
        [A]).filterMap
      (lastLinkIdFor
        [LinkRow.mk 1 1 "active" S A person t1, LinkRow.mk 2 1 "active" S B person t1] S) =
      [2] := by
    rw [hToRem2]
    simp [hLook]
  have hLatest2 : latestLinkFor
      [LinkRow.mk 1 1 "active" S A person t1, LinkRow.mk 2 1 "active" S B person t1] 2 =
      some (LinkRow.mk 2 1 "active" S B person t1) := by
    rw [latestLinkFor]
    rfl
  have hRemApp : applyRemovals
      [LinkRow.mk 1 1 "active" S A person t1, LinkRow.mk 2 1 "active" S B person t1] [2] t2 =
      [LinkRow.mk 1 1 "active" S A person t1, LinkRow.mk 2 1 "active" S B person t1,
        LinkRow.mk 2 2 "deleted" S B person t2] := by
    rw [applyRemovals, List.foldl_cons, hLatest2]
    rfl
  have h2 : reconcileLinks
      [LinkRow.mk 1 1 "active" S A person t1, LinkRow.mk 2 1 "active" S B person t1]
      S [A] person t2 =
      [LinkRow.mk 1 1 "active" S A person t1, LinkRow.mk 2 1 "active" S B person t1,
        LinkRow.mk 2 2 "deleted" S B person t2] := by
    rw [reconcileLinks, hRemIds, hToAdd2, hRemApp]
    rfl
  have hCur2 : current_links
      [LinkRow.mk 1 1 "active" S A person t1, LinkRow.mk 2 1 "active" S B person t1,
        LinkRow.mk 2 2 "deleted" S B person t2] S = [(1, A)] := by
    have hLR2 : linkRowsFor
        [LinkRow.mk 1 1 "active" S A person t1, LinkRow.mk 2 1 "active" S B person t1,
          LinkRow.mk 2 2 "deleted" S B person t2] S =
        [LinkRow.mk 1 1 "active" S A person t1, LinkRow.mk 2 1 "active" S B person t1,
          LinkRow.mk 2 2 "deleted" S B person t2] := by
      simp [linkRowsFor]
    rw [current_links, linkIds, hLR2]
    simp only [latestLinkForSrc, hLR2]
    rfl
  refine ⟨h1, ?_, ?_, ?_⟩
  · rw [h1, h2]
    rfl
  · rw [h1, h2]
    rfl
  · intro u
    rw [h1, h2, hCur2]
    simp [eq_comm]

/-- Claim C4, witness: the add-then-remove scenario at source 1 with
targets 2 and 3. -/
theorem reconcile_remove_exact_witness :
    reconcileLinks [] 1 [2, 3] 9 0 =
      [LinkRow.mk 1 1 "active" 1 2 9 0, LinkRow.mk 2 1 "active" 1 3 9 0] ∧
    reconcileLinks (reconcileLinks [] 1 [2, 3] 9 0) 1 [2] 9 1 =
      reconcileLinks [] 1 [2, 3] 9 0 ++
        [{ LinkRow.mk 2 1 "active" 1 3 9 0 with
            version := 2, status := "deleted", timestamp := 1 }] ∧
    (reconcileLinks (reconcileLinks [] 1 [2, 3] 9 0) 1 [2] 9 1).filter
        (fun r => r.id = 1) =
      (reconcileLinks [] 1 [2, 3] 9 0).filter (fun r => r.id = 1) ∧
    ∀ u : Nat,
      (∃ q ∈ current_links
          (reconcileLinks (reconcileLinks [] 1 [2, 3] 9 0) 1 [2] 9 1) 1,
        q.2 = u) ↔ u = 2 :=
  reconcile_remove_exact 1 2 3 9 0 1 (by decide)

/-- Foreign-key declaration of the DBML schema: child column →
parent column. -/
structure FKRef where
  childTable : String
  childCol : String
  parentTable : String
  parentCol : String
deriving DecidableEq, Repr

/-- Table declaration: name and ordered column list. -/
structure TableDef where
  name : String
  columns : List String
deriving DecidableEq, Repr

/-- Parsed DBML schema: tables and references. -/
structure Schema where
  tables : List TableDef
  refs : List FKRef
deriving DecidableEq, Repr

/-- Row as the graph materializer sees it: versioning columns, the
free-text `type` column of link tables, and the remaining integer
columns (foreign keys) as an association list. -/
structure GRow where
  id : Nat
  version : Nat
  status : Option String
  typeLabel : Option String
  cells : List (String × Option Nat)
deriving DecidableEq, Repr

/-- Column access on a dataframe row (`row[col]` / `row.get(col)`). -/
def gRowGet (r : GRow) (c : String) : Option Nat :=
  if c = "id" then some r.id
  else if c = "version" then some r.version
  else match r.cells.lookup c with
  | some v => v
  | none => none

/-- Rows stored for a table (`SELECT * FROM t`; a missing table is the
caught-and-logged empty result). -/
def tableRows (store : List (String × List GRow)) (t : String) : List GRow :=
  match store.lookup t with
  | some rows => rows
  | none => []

/-- The `db_df` post-processing: keep the latest version of each id
(`df.sort_values(['id','version']).groupby('id').last()`). -/
def latestPerId (rows : List GRow) : List GRow :=
  ((rows.map GRow.id).dedup).filterMap
    (fun i => maxBy GRow.version (rows.filter (fun r => r.id = i)))

/-- A table as loaded by `build_elements_from_db`: latest version per
id, then the `_filter_deleted` status filter unless `include_deleted`. -/
def loadTable (store : List (String × List GRow)) (includeDeleted : Bool)
    (t : String) : List GRow :=
  if includeDeleted then latestPerId (tableRows store t)
  else (latestPerId (tableRows store t)).filter (fun r => notDeleted r.status)

/-- Cytoscape element id `"{table}-{id}"`. -/
def nodeId (t : String) (i : Nat) : String :=
  t ++ "-" ++ toString i

/-- Graph node (the claims concern its id and type). -/
structure GNode where
  nid : String
  ntype : String
deriving DecidableEq, Repr

/-- Graph edge as emitted by `add_edge`. -/
structure GEdge where
  eid : String
  source : String
  target : String
  label : String
  status : Option String
  table_name : Option String
  object_id : Option Nat
deriving DecidableEq, Repr

/-- One node per loaded row of every node table. -/
def buildNodes (store : List (String × List GRow)) (includeDeleted : Bool)
    (nodeTables : List String) : List GNode :=
  nodeTables.bind (fun t =>
    (loadTable store includeDeleted t).map (fun r => GNode.mk (nodeId t r.id) t))

/-- Embedding of the `add_edge` helper of `build_elements_from_db`:
drops the candidate when the underlying row status is `deleted`
(unconditionally, before anything else), when either object id is
NULL, when either endpoint node does not exist, or when the label is
`created by`; an edge from a link table carries `table_name` and
`object_id`, a direct-FK edge does not.  `edgeIdOf` is the edge-id
choice: `"{link_table}-{link_obj_id}"` for a link-table edge, the
`"fk-"` scheme for an implied FK edge. -/
def edgeIdOf (linkTable : Option String) (linkObjId : Option Nat)
    (srcId tgtId : String) : String :=
  match linkTable with
  | some lt =>
    match linkObjId with
    | some lo => nodeId lt lo
    | none => "fk-" ++ srcId ++ "-" ++ tgtId
  | none => "fk-" ++ srcId ++ "-" ++ tgtId

def add_edge (existing : List String) (srcTable : String) (srcObj : Option Nat)
    (tgtTable : String) (tgtObj : Option Nat) (label : String)
    (linkTable : Option String) (linkObjId : Option Nat)
    (linkStatus : Option String) : Option GEdge :=
  if linkStatus = some "deleted" then none
  else match srcObj with
  | none => none
  | some so =>
    match tgtObj with
    | none => none
    | some tg =>
      if nodeId srcTable so ∈ existing ∧ nodeId tgtTable tg ∈ existing then
        if label = "created by" then none
        else
          some (GEdge.mk
            (edgeIdOf linkTable linkObjId (nodeId srcTable so) (nodeId tgtTable tg))
            (nodeId srcTable so) (nodeId tgtTable tg) label linkStatus
            linkTable linkObjId)
      else none

/-- Direct-FK edge label: `child_col.replace('_', ' ').replace('id', '')`. -/
def fkLabel (c : String) : String :=
  (c.replace "_" " ").replace "id" ""

/-- Default label of a link-table edge:
`table.replace('_links', '').replace('_', ' ')`. -/
def linkLabel (tname : String) : String :=
  (tname.replace "_links" "").replace "_" " "

/-- Label of a link-table edge: `row.get('type') or <default>` —
Python's `or` falls back on both a missing and an empty string. -/
def edgeLabel (r : GRow) (tname : String) : String :=
  match r.typeLabel with
  | some s => if s = "" then linkLabel tname else s
  | none => linkLabel tname

/-- The FK map lookup: `fk_map[(child_table, child_col)]`, built by one
pass over the refs with later declarations overwriting earlier ones. -/
def fkLookup (refs : List FKRef) (tc : String × String) : Option (String × String) :=
  refs.foldl (fun a ref =>
    if ref.childTable = tc.1 ∧ ref.childCol = tc.2 then
      some (ref.parentTable, ref.parentCol) else a) none

/-- Edges contributed by one DBML ref, mirroring the two cases of the
edge loop in `build_elements_from_db`: a direct FK when the child
table is a node table (status taken from the child row itself, no
`table_name`), otherwise the link-table case with its paired FK
column, lexicographic once-only guard and the hardcoded
self-referential role columns. -/
def edgesForRef (schema : Schema) (store : List (String × List GRow))
    (includeDeleted : Bool) (nodeTables : List String)
    (existing : List String) (ref : FKRef) : List GEdge :=
  if ref.childTable ∈ nodeTables then
    (loadTable store includeDeleted ref.childTable).filterMap (fun r =>
      match gRowGet r ref.childCol with
      | some _ =>
        add_edge existing ref.parentTable (gRowGet r ref.childCol)
          ref.childTable (gRowGet r ref.parentCol) (fkLabel ref.childCol)
          none none r.status
      | none => none)
  else
    match schema.tables.find? (fun t => t.name = ref.childTable) with
    | none => []
    | some tdef =>
      match tdef.columns.find? (fun c =>
          c ≠ ref.childCol ∧ (fkLookup schema.refs (ref.childTable, c)).isSome) with
      | none => []
      | some otherCol =>
        if otherCol < ref.childCol then []
        else
          match fkLookup schema.refs (ref.childTable, otherCol) with
          | none => []
          | some op =>
            (loadTable store includeDeleted ref.childTable).filterMap (fun r =>
              add_edge existing
                (if ref.childTable = "initiative_initiative_links" then
                  "initiatives" else op.1)
                (gRowGet r (if ref.childTable = "initiative_initiative_links" then
                  "parent_id" else otherCol))
                (if ref.childTable = "initiative_initiative_links" then
                  "initiatives" else ref.parentTable)
                (gRowGet r (if ref.childTable = "initiative_initiative_links" then
                  "child_id" else ref.childCol))
                (edgeLabel r ref.childTable)
                (some ref.childTable) (gRowGet r "id") r.status)

/-- All nodes of a graph build. -/
def allNodes (store : List (String × List GRow)) (includeDeleted : Bool)
    (nodeTables : List String) : List GNode :=
  buildNodes store includeDeleted nodeTables

/-- All edges of a graph build. -/
def allEdges (schema : Schema) (store : List (String × List GRow))
    (includeDeleted : Bool) (nodeTables : List String) : List GEdge :=
  schema.refs.bind
    (edgesForRef schema store includeDeleted nodeTables
      ((buildNodes store includeDeleted nodeTables).map GNode.nid))

/-- Undirected neighbor list of a node in the Cytoscape edge list
(`networkx.Graph` edges). -/
def neighbors (edges : List GEdge) (u : String) : List String :=
  edges.bind (fun e =>
    (if e.source = u then [e.target] else []) ++
      (if e.target = u then [e.source] else []))

/-- One breadth-first expansion: the set plus all its neighbors. -/
def stepBall (edges : List GEdge) (X : List String) : List String :=
  (X ++ X.bind (neighbors edges)).dedup

/-- `networkx.ego_graph(G, s, radius := r)` node set: everything within
undirected distance `r` of `s`. -/
def ball (edges : List GEdge) (s : String) : Nat → List String
  | 0 => [s]
  | r + 1 => stepBall edges (ball edges s r)

/-- Node ids kept by the degree filter: the union of the per-seed ego
graphs, seeds absent from the graph being skipped. -/
def degreeKeep (nodes : List GNode) (edges : List GEdge) (seeds : List String)
    (r : Nat) : List String :=
  ((seeds.filter (fun p => p ∈ nodes.map GNode.nid)).bind
    (fun s => ball edges s r)).dedup

/-- The degree filter of `build_elements_from_db`: keep the nodes whose
id is reached, then the edges whose two endpoints are both kept. -/
def applyDegreeFilter (nodes : List GNode) (edges : List GEdge)
    (seeds : List String) (deg : Nat) : List GNode × List GEdge :=
  let keep := degreeKeep nodes edges seeds deg
  let kept := nodes.filter (fun n => n.nid ∈ keep)
  (kept, edges.filter (fun e =>
    e.source ∈ kept.map GNode.nid ∧ e.target ∈ kept.map GNode.nid))

/-- Degree-filter stage of `build_elements_from_db`: applied only when
both a non-empty seed list and a degree are given (Python truthiness of
`people_selected` and `degree is not None`). -/
def afterDegree (nodes : List GNode) (edges : List GEdge)
    (peopleSelected : Option (List String)) (degree : Option Nat) :
    List GNode × List GEdge :=
  match peopleSelected, degree with
  | some ps, some d =>
    if ps.isEmpty then (nodes, edges) else applyDegreeFilter nodes edges ps d
  | _, _ => (nodes, edges)

/-- Node-type display-filter stage of `build_elements_from_db`: keep
nodes whose type is selected, then edges with both endpoints kept;
skipped when no type list is given. -/
def applyTypeFilter (pair : List GNode × List GEdge)
    (nodeTypes : Option (List String)) : List GNode × List GEdge :=
  match nodeTypes with
  | some ts =>
    if ts.isEmpty then pair
    else
      (pair.1.filter (fun n => n.ntype ∈ ts),
        pair.2.filter (fun e =>
          e.source ∈ (pair.1.filter (fun n => n.ntype ∈ ts)).map GNode.nid ∧
            e.target ∈ (pair.1.filter (fun n => n.ntype ∈ ts)).map GNode.nid))
  | none => pair

/-- Embedding of `build_elements_from_db(include_deleted, node_types,
people_selected, degree)`: build all nodes and edges, apply the degree
filter, then the node-type display filter. -/
def build_elements_from_db (schema : Schema) (store : List (String × List GRow))
    (nodeTables : List String) (includeDeleted : Bool)
    (nodeTypes : Option (List String)) (peopleSelected : Option (List String))
    (degree : Option Nat) : List GNode × List GEdge :=
  applyTypeFilter
    (afterDegree (allNodes store includeDeleted nodeTables)
      (allEdges schema store includeDeleted nodeTables) peopleSelected degree)
    nodeTypes

theorem add_edge_some (existing : List String) (sT : String) (sO : Option Nat)
    (tT : String) (tO : Option Nat) (lbl : String) (lT : Option String)
    (lO : Option Nat) (lS : Option String) (e : GEdge)
    (h : add_edge existing sT sO tT tO lbl lT lO lS = some e) :
    lS ≠ some "deleted" ∧ e.status = lS ∧ e.label = lbl ∧ lbl ≠ "created by" ∧
      e.table_name = lT ∧ e.object_id = lO ∧
      ∃ so tg, sO = some so ∧ tO = some tg ∧
        e.source = nodeId sT so ∧ e.target = nodeId tT tg := by
  rw [add_edge.eq_def] at h
  by_cases hdel : lS = some "deleted"
  · rw [if_pos hdel] at h
    exact Option.noConfusion h
  · rw [if_neg hdel] at h
    rcases sO with _ | so
    · exact Option.noConfusion h
    rcases tO with _ | tg
    · exact Option.noConfusion h
    rw [show (match some so with
        | none => none
        | some so =>
          match some tg with
          | none => (none : Option GEdge)
          | some tg =>
            if nodeId sT so ∈ existing ∧ nodeId tT tg ∈ existing then
              if lbl = "created by" then none
              else
                some (GEdge.mk (edgeIdOf lT lO (nodeId sT so) (nodeId tT tg))
                  (nodeId sT so) (nodeId tT tg) lbl lS lT lO)
            else none) =
        (if nodeId sT so ∈ existing ∧ nodeId tT tg ∈ existing then
          if lbl = "created by" then none
          else
            some (GEdge.mk (edgeIdOf lT lO (nodeId sT so) (nodeId tT tg))
              (nodeId sT so) (nodeId tT tg) lbl lS lT lO)
        else none) from rfl] at h
    by_cases hmem : nodeId sT so ∈ existing ∧ nodeId tT tg ∈ existing
    · rw [if_pos hmem] at h
      by_cases hlbl : lbl = "created by"
      · rw [if_pos hlbl] at h
        exact Option.noConfusion h
      · rw [if_neg hlbl] at h
        have he : e = GEdge.mk
            (edgeIdOf lT lO (nodeId sT so) (nodeId tT tg))
            (nodeId sT so) (nodeId tT tg) lbl lS lT lO := (Option.some.inj h).symm
        rw [he]
        exact ⟨hdel, rfl, rfl, hlbl, rfl, rfl, so, tg, rfl, rfl, rfl, rfl⟩
    · rw [if_neg hmem] at h
      exact Option.noConfusion h

theorem edgesForRef_status (schema : Schema) (store : List (String × List GRow))
    (incD : Bool) (nodeTables : List String) (existing : List String)
    (ref : FKRef) (e : GEdge)
    (h : e ∈ edgesForRef schema store incD nodeTables existing ref) :
    e.status ≠ some "deleted" ∧ e.label ≠ "created by" ∧
      (e.table_name = none →
        ∃ r ∈ loadTable store incD ref.childTable, e.status = r.status ∧
          ∃ so tg, gRowGet r ref.childCol = some so ∧
            gRowGet r ref.parentCol = some tg ∧
            e.source = nodeId ref.parentTable so ∧
            e.target = nodeId ref.childTable tg) := by
  rw [edgesForRef.eq_def] at h
  split at h
  · obtain ⟨r, hr, hadd⟩ := List.mem_filterMap.mp h
    split at hadd
    · obtain ⟨hdel, hst, hlbl, hncb, _, _, so', tg, hso, htg, hsrc, htgt⟩ :=
        add_edge_some existing ref.parentTable (gRowGet r ref.childCol)
          ref.childTable (gRowGet r ref.parentCol) (fkLabel ref.childCol)
          none none r.status e hadd
      refine ⟨by rw [hst]; exact hdel, by rw [hlbl]; exact hncb, ?_⟩
      intro _
      exact ⟨r, hr, by rw [hst], so', tg, hso, htg, hsrc, htgt⟩
    · exact Option.noConfusion hadd
  · split at h
    · exact absurd h (List.not_mem_nil e)
    · split at h
      · exact absurd h (List.not_mem_nil e)
      · split at h
        · exact absurd h (List.not_mem_nil e)
        · split at h
          · exact absurd h (List.not_mem_nil e)
          · obtain ⟨r, hr, hadd⟩ := List.mem_filterMap.mp h
            obtain ⟨hdel, hst, hlbl, hncb, htn, -, -⟩ :=
              add_edge_some _ _ _ _ _ _ _ _ _ _ hadd
            refine ⟨by rw [hst]; exact hdel, by rw [hlbl]; exact hncb, ?_⟩
            intro hnone
            rw [htn] at hnone
            exact Option.noConfusion hnone

theorem afterDegree_edges_subset (nodes : List GNode) (edges : List GEdge)
    (ps : Option (List String)) (deg : Option Nat) :
    ∀ e ∈ (afterDegree nodes edges ps deg).2, e ∈ edges := by
  intro e he
  rcases ps with _ | l
  · exact he
  rcases deg with _ | d
  · exact he
  rw [afterDegree] at he
  by_cases hl : l.isEmpty
  · rw [if_pos hl] at he
    exact he
  · rw [if_neg hl] at he
    rw [applyDegreeFilter] at he
    exact List.mem_of_mem_filter he

theorem applyTypeFilter_edges_subset (pair : List GNode × List GEdge)
    (nodeTypes : Option (List String)) :
    ∀ e ∈ (applyTypeFilter pair nodeTypes).2, e ∈ pair.2 := by
  intro e he
  rcases nodeTypes with _ | ts
  · exact he
  rw [applyTypeFilter] at he
  by_cases hts : ts.isEmpty
  · rw [if_pos hts] at he
    exact he
  · rw [if_neg hts] at he
    exact List.mem_of_mem_filter he

theorem build_edges_subset (schema : Schema) (store : List (String × List GRow))
    (nodeTables : List String) (incD : Bool) (nodeTypes : Option (List String))
    (ps : Option (List String)) (deg : Option Nat) :
    ∀ e ∈ (build_elements_from_db schema store nodeTables incD nodeTypes ps deg).2,
      e ∈ allEdges schema store incD nodeTables := by
  intro e he
  rw [build_elements_from_db] at he
  exact afterDegree_edges_subset _ _ ps deg e
    (applyTypeFilter_edges_subset _ nodeTypes e he)

/-- Claim C6: for every schema, store and option setting, no emitted
edge carries status `deleted` — even when `include_deleted` is set —
and every direct foreign-key edge (the ones without `table_name`)
takes its status from the owning child row's own status field: the
edge's status equals the status of the loaded child row it was built
from, the row whose FK cell and id give the edge's endpoints. -/
theorem build_graph_edge_status (schema : Schema) (store : List (String × List GRow))
    (nodeTables : List String) (incD : Bool) (nodeTypes : Option (List String))
    (ps : Option (List String)) (deg : Option Nat) :
    (∀ e ∈ (build_elements_from_db schema store nodeTables incD nodeTypes ps deg).2,
      e.status ≠ some "deleted") ∧
    (∀ e ∈ (build_elements_from_db schema store nodeTables incD nodeTypes ps deg).2,
      e.table_name = none →
        ∃ ref ∈ schema.refs, ∃ r ∈ loadTable store incD ref.childTable,
          e.status = r.status ∧
          ∃ so tg, gRowGet r ref.childCol = some so ∧
            gRowGet r ref.parentCol = some tg ∧
            e.source = nodeId ref.parentTable so ∧
            e.target = nodeId ref.childTable tg) := by
  constructor
  · intro e he
    have hall := build_edges_subset schema store nodeTables incD nodeTypes ps deg e he
    obtain ⟨ref, _, href⟩ := List.mem_bind.mp hall
    exact (edgesForRef_status schema store incD nodeTables _ ref e href).1
  · intro e he hnone
    have hall := build_edges_subset schema store nodeTables incD nodeTypes ps deg e he
    obtain ⟨ref, hrefmem, href⟩ := List.mem_bind.mp hall
    obtain ⟨_, _, hfk⟩ := edgesForRef_status schema store incD nodeTables _ ref e href
    exact ⟨ref, hrefmem, hfk hnone⟩

/-- Claim C10: no emitted edge of any graph build has label
`created by`, and `add_edge` returns no edge at all when called with
that label, whatever the other arguments — authorship foreign keys
are never rendered. -/
theorem build_graph_no_created_by (schema : Schema) (store : List (String × List GRow))
    (nodeTables : List String) (incD : Bool) (nodeTypes : Option (List String))
    (ps : Option (List String)) (deg : Option Nat) :
    (∀ e ∈ (build_elements_from_db schema store nodeTables incD nodeTypes ps deg).2,
      e.label ≠ "created by") ∧
    (∀ (existing : List String) (sT : String) (sO : Option Nat) (tT : String)
      (tO : Option Nat) (lT : Option String) (lO : Option Nat) (lS : Option String),
      add_edge existing sT sO tT tO "created by" lT lO lS = none) := by
  constructor
  · intro e he
    have hall := build_edges_subset schema store nodeTables incD nodeTypes ps deg e he
    obtain ⟨ref, _, href⟩ := List.mem_bind.mp hall
    exact (edgesForRef_status schema store incD nodeTables _ ref e href).2.1
  · intro existing sT sO tT tO lT lO lS
    rcases hc : add_edge existing sT sO tT tO "created by" lT lO lS with _ | e
    · rfl
    · obtain ⟨-, -, -, hncb, -⟩ := add_edge_some _ _ _ _ _ _ _ _ _ _ hc
      exact absurd rfl hncb

/-- Undirected adjacency in the materialized edge list (the
`networkx.Graph` built by the degree filter). -/
def adjacent (edges : List GEdge) (a b : String) : Prop :=
  ∃ e ∈ edges, (e.source = a ∧ e.target = b) ∨ (e.source = b ∧ e.target = a)

/-- Undirected graph distance at most `r`: a path of at most `r` hops
exists from `a` to `b`. -/
def connLe (edges : List GEdge) : Nat → String → String → Prop
  | 0, a, b => a = b
  | r + 1, a, b => connLe edges r a b ∨ ∃ u, connLe edges r a u ∧ adjacent edges u b

theorem mem_neighbors (edges : List GEdge) (u b : String) :
    b ∈ neighbors edges u ↔ adjacent edges u b := by
  simp only [neighbors, List.mem_bind, List.mem_append, adjacent]
  constructor
  · rintro ⟨e, he, hc | hc⟩
    · by_cases hs : e.source = u
      · rw [if_pos hs] at hc
        simp only [List.mem_singleton] at hc
        exact ⟨e, he, Or.inl ⟨hs, hc.symm⟩⟩
      · rw [if_neg hs] at hc
        exact absurd hc (List.not_mem_nil b)
    · by_cases ht : e.target = u
      · rw [if_pos ht] at hc
        simp only [List.mem_singleton] at hc
        exact ⟨e, he, Or.inr ⟨hc.symm, ht⟩⟩
      · rw [if_neg ht] at hc
        exact absurd hc (List.not_mem_nil b)
  · rintro ⟨e, he, ⟨hs, ht⟩ | ⟨hs, ht⟩⟩
    · refine ⟨e, he, Or.inl ?_⟩
      rw [if_pos hs]
      simp [ht]
    · refine ⟨e, he, Or.inr ?_⟩
      rw [if_pos ht]
      simp [hs]

theorem mem_stepBall (edges : List GEdge) (X : List String) (b : String) :
    b ∈ stepBall edges X ↔ b ∈ X ∨ ∃ u ∈ X, adjacent edges u b := by
  simp [stepBall, List.mem_bind, mem_neighbors]

theorem mem_ball (edges : List GEdge) (s : String) :
    ∀ (r : Nat) (b : String), b ∈ ball edges s r ↔ connLe edges r s b := by
  intro r
  induction r with
  | zero =>
    intro b
    show b ∈ [s] ↔ s = b
    simp [eq_comm]
  | succ r ih =>
    intro b
    show b ∈ stepBall edges (ball edges s r) ↔ connLe edges (r + 1) s b
    rw [mem_stepBall]
    constructor
    · rintro (hb | ⟨u, hu, hadj⟩)
      · exact Or.inl ((ih b).mp hb)
      · exact Or.inr ⟨u, (ih u).mp hu, hadj⟩
    · rintro (hb | ⟨u, hu, hadj⟩)
      · exact Or.inl ((ih b).mpr hb)
      · exact Or.inr ⟨u, (ih u).mpr hu, hadj⟩

theorem mem_degreeKeep (nodes : List GNode) (edges : List GEdge)
    (seeds : List String) (r : Nat) (x : String) :
    x ∈ degreeKeep nodes edges seeds r ↔
      ∃ s ∈ seeds, s ∈ nodes.map GNode.nid ∧ connLe edges r s x := by
  simp only [degreeKeep, List.mem_dedup, List.mem_bind, List.mem_filter,
    decide_eq_true_eq]
  constructor
  · rintro ⟨s, ⟨hs, hpres⟩, hball⟩
    exact ⟨s, hs, hpres, (mem_ball edges s r x).mp hball⟩
  · rintro ⟨s, hs, hpres, hconn⟩
    exact ⟨s, ⟨hs, hpres⟩, (mem_ball edges s r x).mpr hconn⟩

/-- The chain S–A–B–C of the claim's boundary example (all nodes of a
traversable type). -/
def chainNodes : List GNode :=
  [GNode.mk "S" "t", GNode.mk "A" "t", GNode.mk "B" "t", GNode.mk "C" "t"]

/-- Edges of the chain S–A–B–C. -/
def chainEdges : List GEdge :=
  [GEdge.mk "e1" "S" "A" "l" none none none,
    GEdge.mk "e2" "A" "B" "l" none none none,
    GEdge.mk "e3" "B" "C" "l" none none none]

/-- Claim C7: the degree filter keeps exactly the nodes at undirected
graph distance at most `r` from some seed present in the graph, plus
exactly the edges whose two endpoints are both kept; on the chain
S–A–B–C seeded at S, radius 1 keeps nodes S and A, radius 2 keeps
S, A and B. -/
theorem degree_filter_exact (nodes : List GNode) (edges : List GEdge)
    (seeds : List String) (r : Nat) :
    (∀ n : GNode, n ∈ (applyDegreeFilter nodes edges seeds r).1 ↔
      (n ∈ nodes ∧ ∃ s ∈ seeds, s ∈ nodes.map GNode.nid ∧ connLe edges r s n.nid)) ∧
    (∀ e : GEdge, e ∈ (applyDegreeFilter nodes edges seeds r).2 ↔
      (e ∈ edges ∧
        e.source ∈ ((applyDegreeFilter nodes edges seeds r).1).map GNode.nid ∧
        e.target ∈ ((applyDegreeFilter nodes edges seeds r).1).map GNode.nid)) ∧
    (applyDegreeFilter chainNodes chainEdges ["S"] 1).1.map GNode.nid = ["S", "A"] ∧
    (applyDegreeFilter chainNodes chainEdges ["S"] 2).1.map GNode.nid = ["S", "A", "B"] := by
  refine ⟨?_, ?_, by decide, by decide⟩
  · intro n
    simp only [applyDegreeFilter, List.mem_filter, decide_eq_true_eq]
    rw [mem_degreeKeep]
  · intro e
    simp only [applyDegreeFilter, List.mem_filter, decide_eq_true_eq]

/-- Type of the node with a given id, when present. -/
def nodeTypeOf (nodes : List GNode) (x : String) : Option String :=
  (nodes.find? (fun n => n.nid = x)).map GNode.ntype

/-- Modelled from the spec: the expansion gate of §4.5's
`filterByRadius` — "a frontier node may expand to its neighbors only
if its own type is in `traversableTypes` or it is a seed node".  The
repository's sources hold only the ungated ego-graph degree filter and
the `node-type-degree-filter` UI checklist (`view_gen.py`) without the
consuming traversal, so the gate is modelled from the spec's words. -/
def mayExpand (nodes : List GNode) (T seeds : List String) (x : String) : Bool :=
  decide (x ∈ seeds) ||
    (match nodeTypeOf nodes x with
      | some ty => decide (ty ∈ T)
      | none => false)

/-- Modelled from the spec: one breadth-first expansion in which only
gate-passing members expand to their neighbors. -/
def gatedStep (nodes : List GNode) (edges : List GEdge) (T seeds : List String)
    (X : List String) : List String :=
  (X ++ (X.filter (mayExpand nodes T seeds)).bind (neighbors edges)).dedup

/-- Modelled from the spec: the node ids reached by the type-gated
breadth-first traversal within `r` hops of the seed set (seeds absent
from the graph are skipped; seeds always expand regardless of type). -/
def gatedReach (nodes : List GNode) (edges : List GEdge) (T seeds : List String) :
    Nat → List String
  | 0 => seeds.filter (fun p => p ∈ nodes.map GNode.nid)
  | r + 1 => gatedStep nodes edges T seeds (gatedReach nodes edges T seeds r)

/-- Modelled from the spec: `filterByRadius(graph, seedNodeIds, radius,
traversableTypes)` — nodes whose id is in the reached set, plus edges
whose both endpoints are in that set. -/
def filterByRadius (nodes : List GNode) (edges : List GEdge)
    (seeds T : List String) (r : Nat) : List GNode × List GEdge :=
  let keep := gatedReach nodes edges T seeds r
  let kept := nodes.filter (fun n => n.nid ∈ keep)
  (kept, edges.filter (fun e =>
    e.source ∈ kept.map GNode.nid ∧ e.target ∈ kept.map GNode.nid))

/-- A gated path of at most `r` hops: every node it expands through
(each node except the final one) is a seed or of a traversable type. -/
def gatedConn (nodes : List GNode) (edges : List GEdge) (T seeds : List String) :
    Nat → String → String → Prop
  | 0, a, b => a = b
  | r + 1, a, b => gatedConn nodes edges T seeds r a b ∨
      ∃ u, gatedConn nodes edges T seeds r a u ∧
        mayExpand nodes T seeds u = true ∧ adjacent edges u b

theorem mem_gatedStep (nodes : List GNode) (edges : List GEdge)
    (T seeds : List String) (X : List String) (x : String) :
    x ∈ gatedStep nodes edges T seeds X ↔
      x ∈ X ∨ ∃ u ∈ X, mayExpand nodes T seeds u = true ∧ adjacent edges u x := by
  simp only [gatedStep, List.mem_dedup, List.mem_append, List.mem_bind,
    List.mem_filter, mem_neighbors]
  constructor
  · rintro (hx | ⟨u, ⟨hu, hg⟩, hadj⟩)
    · exact Or.inl hx
    · exact Or.inr ⟨u, hu, hg, hadj⟩
  · rintro (hx | ⟨u, hu, hg, hadj⟩)
    · exact Or.inl hx
    · exact Or.inr ⟨u, ⟨hu, hg⟩, hadj⟩

theorem mem_gatedReach (nodes : List GNode) (edges : List GEdge)
    (T seeds : List String) :
    ∀ (r : Nat) (x : String), x ∈ gatedReach nodes edges T seeds r ↔
      ∃ s, s ∈ seeds ∧ s ∈ nodes.map GNode.nid ∧
        gatedConn nodes edges T seeds r s x := by
  intro r
  induction r with
  | zero =>
    intro x
    show x ∈ seeds.filter (fun p => p ∈ nodes.map GNode.nid) ↔ _
    simp only [List.mem_filter, decide_eq_true_eq]
    constructor
    · rintro ⟨hx, hpres⟩
      exact ⟨x, hx, hpres, rfl⟩
    · rintro ⟨s, hs, hpres, hconn⟩
      have hsx : s = x := hconn
      rw [← hsx]
      exact ⟨hs, hpres⟩
  | succ r ih =>
    intro x
    show x ∈ gatedStep nodes edges T seeds (gatedReach nodes edges T seeds r) ↔ _
    rw [mem_gatedStep]
    constructor
    · rintro (hx | ⟨u, hu, hg, hadj⟩)
      · obtain ⟨s, hs, hpres, hconn⟩ := (ih x).mp hx
        exact ⟨s, hs, hpres, Or.inl hconn⟩
      · obtain ⟨s, hs, hpres, hconn⟩ := (ih u).mp hu
        exact ⟨s, hs, hpres, Or.inr ⟨u, hconn, hg, hadj⟩⟩
    · rintro ⟨s, hs, hpres, hconn | ⟨u, hconn, hg, hadj⟩⟩
      · exact Or.inl ((ih x).mpr ⟨s, hs, hpres, hconn⟩)
      · exact Or.inr ⟨u, (ih u).mpr ⟨s, hs, hpres, hconn⟩, hg, hadj⟩

/-- The claim's blocking example: S of traversable type "t", X of
non-traversable type "blocked", C of type "t". -/
def blockNodes : List GNode :=
  [GNode.mk "S" "t", GNode.mk "X" "blocked", GNode.mk "C" "t"]

/-- Edges of the blocking example: S–X–C. -/
def blockEdges : List GEdge :=
  [GEdge.mk "e1" "S" "X" "l" none none none,
    GEdge.mk "e2" "X" "C" "l" none none none]

/-- Claim C8: in the type-gated bounded-radius traversal a node is
kept exactly when a gated path reaches it — one whose every expanded
(non-final) node is a seed or of a traversable type — so seeds expand
regardless of type while other frontier nodes must pass the type
filter; consequently a node without any gated path from the seeds is
excluded at every radius, and concretely on S–X–C with X of a
non-traversable type, C is excluded even at radius 5 although its
ungated distance from S is 2. -/
theorem filterByRadius_gating (nodes : List GNode) (edges : List GEdge)
    (seeds T : List String) :
    (∀ (r : Nat) (n : GNode), n ∈ (filterByRadius nodes edges seeds T r).1 ↔
      (n ∈ nodes ∧ ∃ s, s ∈ seeds ∧ s ∈ nodes.map GNode.nid ∧
        gatedConn nodes edges T seeds r s n.nid)) ∧
    (∀ v : GNode,
      (∀ (r : Nat) (s : String), s ∈ seeds → s ∈ nodes.map GNode.nid →
        ¬ gatedConn nodes edges T seeds r s v.nid) →
      ∀ r : Nat, v ∉ (filterByRadius nodes edges seeds T r).1) ∧
    ("C" ∈ ball blockEdges "S" 2) ∧
    (filterByRadius blockNodes blockEdges ["S"] ["t"] 5).1.map GNode.nid = ["S", "X"] := by
  have hchar : ∀ (r : Nat) (n : GNode), n ∈ (filterByRadius nodes edges seeds T r).1 ↔
      (n ∈ nodes ∧ ∃ s, s ∈ seeds ∧ s ∈ nodes.map GNode.nid ∧
        gatedConn nodes edges T seeds r s n.nid) := by
    intro r n
    simp only [filterByRadius, List.mem_filter, decide_eq_true_eq]
    rw [mem_gatedReach]
  refine ⟨hchar, ?_, by decide, by decide⟩
  intro v hnone r hv
  obtain ⟨_, s, hs, hpres, hconn⟩ := (hchar r v).mp hv
  exact hnone r s hs hpres hconn

end Collab
